import Mathlib

/-!
# Verification of the deep_space Cosmos key library

This file gives a shallow embedding, in Lean 4, of the key-handling core of
the `deep_space` Rust crate (files `private_key.rs`, `public_key.rs`,
`utils.rs`), together with theorems settling a list of specification claims
about it.

Modelling conventions:

* Byte strings are `List Nat` whose elements are intended to be `< 256`;
  text strings are `List Nat` of Unicode code points.  Machine integers are
  `Nat` with explicit reductions `% 2 ^ 32` / `% 2 ^ 64` where the Rust code
  relies on fixed-width (wrapping) behaviour.
* Rust `Result` values become `Except Failure α`; a Rust panic (an `unwrap`
  on an error, which aborts) is the distinguished failure `Failure.panicked`,
  kept separate from ordinary returned errors.
* External crates used by the source (`sha2`, `hmac`, `ripemd`, `secp256k1`,
  `bech32`, `base64`, `prost`) are embedded by faithful executable
  implementations of the algorithms they provide.
* Modules of the repository that are referenced but whose sources are not
  part of the four files above (`error.rs`, `address.rs`, `mnemonic.rs`,
  `coin.rs`, `msg.rs`) are modelled from the specification; each such
  definition carries a doc comment starting with `Modelled from the spec:`.
-/

set_option maxRecDepth 100000
set_option maxHeartbeats 2000000

namespace DeepSpace

/-- Interpretation of a byte list as a big-endian unsigned integer
(`BigUint::from_bytes_be`). -/
def beToNat (bs : List Nat) : Nat :=
  bs.foldl (fun acc b => acc * 256 + b) 0

/-- Big-endian bytes of a value, left-padded to exactly 32 bytes.  This is
the canonical fixed-width encoding of a 256-bit integer. -/
def toBytesBE32 (v : Nat) : List Nat :=
  (List.range 32).map (fun i => v / 256 ^ (31 - i) % 256)

/-- Big-endian bytes of a 32-bit value, exactly 4 bytes
(`u32::to_be_bytes`). -/
def toBytesBE4 (v : Nat) : List Nat :=
  [v / 2 ^ 24 % 256, v / 2 ^ 16 % 256, v / 2 ^ 8 % 256, v % 256]

/-- Little-endian base-256 digits of a value, with explicit fuel (the value
itself always suffices, since the value shrinks by a factor 256 each
step). -/
def leDigits : Nat → Nat → List Nat
  | 0, _ => []
  | fuel + 1, v => if v = 0 then [] else v % 256 :: leDigits fuel (v / 256)

/-- Minimal big-endian byte representation of a `BigUint`
(`BigUint::to_bytes_be`): no leading zero bytes, and the single byte `0`
for the value zero. -/
def toBytesBEMin (v : Nat) : List Nat :=
  if v = 0 then [0] else (leDigits v v).reverse

/-- Truncation to a 32-bit machine word. -/
def u32 (v : Nat) : Nat := v % 2 ^ 32

/-- Truncation to a 64-bit machine word. -/
def u64 (v : Nat) : Nat := v % 2 ^ 64

/-! ## SHA-256 (the `sha2` crate's `Sha256`) -/

/-- Addition of 32-bit words. -/
def add32 (a b : Nat) : Nat := (a + b) % 2 ^ 32

/-- Right rotation of a 32-bit word by `k` bits. -/
def rotr32 (k x : Nat) : Nat := (x >>> k) ||| ((x % 2 ^ k) <<< (32 - k))

/-- SHA-256 round constants. -/
def sha256K : List Nat :=
  [0x428a2f98, 0x71374491, 0xb5c0fbcf, 0xe9b5dba5] ++
  [0x3956c25b, 0x59f111f1, 0x923f82a4, 0xab1c5ed5] ++
  [0xd807aa98, 0x12835b01, 0x243185be, 0x550c7dc3] ++
  [0x72be5d74, 0x80deb1fe, 0x9bdc06a7, 0xc19bf174] ++
  [0xe49b69c1, 0xefbe4786, 0x0fc19dc6, 0x240ca1cc] ++
  [0x2de92c6f, 0x4a7484aa, 0x5cb0a9dc, 0x76f988da] ++
  [0x983e5152, 0xa831c66d, 0xb00327c8, 0xbf597fc7] ++
  [0xc6e00bf3, 0xd5a79147, 0x06ca6351, 0x14292967] ++
  [0x27b70a85, 0x2e1b2138, 0x4d2c6dfc, 0x53380d13] ++
  [0x650a7354, 0x766a0abb, 0x81c2c92e, 0x92722c85] ++
  [0xa2bfe8a1, 0xa81a664b, 0xc24b8b70, 0xc76c51a3] ++
  [0xd192e819, 0xd6990624, 0xf40e3585, 0x106aa070] ++
  [0x19a4c116, 0x1e376c08, 0x2748774c, 0x34b0bcb5] ++
  [0x391c0cb3, 0x4ed8aa4a, 0x5b9cca4f, 0x682e6ff3] ++
  [0x748f82ee, 0x78a5636f, 0x84c87814, 0x8cc70208] ++
  [0x90befffa, 0xa4506ceb, 0xbef9a3f7, 0xc67178f2]

/-- SHA-256 initial hash state. -/
def sha256Init : List Nat :=
  [0x6a09e667, 0xbb67ae85, 0x3c6ef372, 0xa54ff53a,
   0x510e527f, 0x9b05688c, 0x1f83d9ab, 0x5be0cd19]

/-- Small sigma 0 of the SHA-256 message schedule. -/
def ssig0 (x : Nat) : Nat := rotr32 7 x ^^^ rotr32 18 x ^^^ (x >>> 3)

/-- Small sigma 1 of the SHA-256 message schedule. -/
def ssig1 (x : Nat) : Nat := rotr32 17 x ^^^ rotr32 19 x ^^^ (x >>> 10)

/-- Extension of the 16-word block to the full 64-word message schedule,
keeping a sliding window of the last 16 words (oldest first). -/
def sha256Extend : Nat → List Nat → List Nat
  | 0, _ => []
  | fuel + 1, w =>
    match w with
    | w0 :: w1 :: w2 :: w3 :: w4 :: w5 :: w6 :: w7 :: w8 :: w9 ::
      w10 :: w11 :: w12 :: w13 :: w14 :: w15 :: [] =>
      let nw := (ssig1 w14 + w9 + ssig0 w1 + w0) % 2 ^ 32
      nw :: sha256Extend fuel
        [w1, w2, w3, w4, w5, w6, w7, w8, w9, w10, w11, w12, w13, w14, w15, nw]
    | _ => []

/-- Working state of a SHA-256 compression. -/
structure Sha2State where
  a : Nat
  b : Nat
  c : Nat
  d : Nat
  e : Nat
  f : Nat
  g : Nat
  h : Nat

/-- One SHA-256 round on the working variables. -/
def sha256Round (s : Sha2State) (kw : Nat × Nat) : Sha2State :=
  let bsig1 := rotr32 6 s.e ^^^ rotr32 11 s.e ^^^ rotr32 25 s.e
  let ch := (s.e &&& s.f) ^^^ ((s.e ^^^ 0xffffffff) &&& s.g)
  let t1 := (s.h + bsig1 + ch + kw.1 + kw.2) % 2 ^ 32
  let bsig0 := rotr32 2 s.a ^^^ rotr32 13 s.a ^^^ rotr32 22 s.a
  let maj := (s.a &&& s.b) ^^^ (s.a &&& s.c) ^^^ (s.b &&& s.c)
  let t2 := (bsig0 + maj) % 2 ^ 32
  ⟨(t1 + t2) % 2 ^ 32, s.a, s.b, s.c, (s.d + t1) % 2 ^ 32, s.e, s.f, s.g⟩

/-- SHA-256 compression of one 16-word block into the 8-word chaining
state. -/
def sha256Compress (hs : List Nat) (block : List Nat) : List Nat :=
  match hs with
  | [h0, h1, h2, h3, h4, h5, h6, h7] =>
    let w := block ++ sha256Extend 48 block
    let st := (w.zip sha256K).foldl sha256Round ⟨h0, h1, h2, h3, h4, h5, h6, h7⟩
    [add32 h0 st.a, add32 h1 st.b, add32 h2 st.c, add32 h3 st.d,
     add32 h4 st.e, add32 h5 st.f, add32 h6 st.g, add32 h7 st.h]
  | _ => hs

/-- Big-endian 32-bit words of a byte list (length a multiple of 4). -/
def bytesToWords32 : List Nat → List Nat
  | b0 :: b1 :: b2 :: b3 :: rest =>
    (((b0 * 256 + b1) * 256 + b2) * 256 + b3) :: bytesToWords32 rest
  | _ => []

/-- Splitting into blocks of `n` words, via fuel bounded by the list
length. -/
def chunksOf (n : Nat) : Nat → List Nat → List (List Nat)
  | 0, _ => []
  | _, [] => []
  | fuel + 1, xs => xs.take n :: chunksOf n fuel (xs.drop n)

/-- Merkle–Damgård padding for a 64-byte-block hash with a 64-bit length
field (as in SHA-256): `0x80`, zeros, then the bit length big-endian in 8
bytes. -/
def mdPad64 (msg : List Nat) : List Nat :=
  let len := msg.length
  let zeros := (119 - len % 64) % 64
  msg ++ 0x80 :: List.replicate zeros 0 ++
    [u64 (len * 8) / 256 ^ 7 % 256, u64 (len * 8) / 256 ^ 6 % 256,
     u64 (len * 8) / 256 ^ 5 % 256, u64 (len * 8) / 256 ^ 4 % 256,
     u64 (len * 8) / 256 ^ 3 % 256, u64 (len * 8) / 256 ^ 2 % 256,
     u64 (len * 8) / 256 ^ 1 % 256, u64 (len * 8) % 256]

/-- Big-endian bytes of a list of 32-bit words. -/
def words32ToBytes : List Nat → List Nat
  | [] => []
  | w :: rest =>
    w / 2 ^ 24 % 256 :: w / 2 ^ 16 % 256 :: w / 2 ^ 8 % 256 :: w % 256 ::
      words32ToBytes rest

/-- SHA-256 digest (32 bytes) of a byte list (`Sha256::digest`). -/
def sha256 (msg : List Nat) : List Nat :=
  let padded := mdPad64 msg
  let ws := bytesToWords32 padded
  let blocks := chunksOf 16 ws.length ws
  words32ToBytes (blocks.foldl sha256Compress sha256Init)

/-! ## The curve order and `PrivateKey::from_secret` -/

/-- Order of the secp256k1 group (`secp256k1::constants::CURVE_ORDER`,
interpreted big-endian). -/
def nCurve : Nat :=
  0xFFFFFFFFFFFFFFFFFFFFFFFFFFFFFFFEBAAEDCE6AF48A03BBFD25E8CD0364141

/-- Embedding of `PrivateKey::from_secret`: hash the secret, reduce the
digest modulo `curve_order - 1`, add one, then take the minimal big-endian
bytes and *append* zero bytes (`i_bytes.push(0)`) until the buffer is 32
bytes long.  The `while` loop pushes at the end of the vector, so a value
shorter than 32 bytes is padded with trailing, not leading, zeros. -/
def fromSecret (secret : List Nat) : List Nat :=
  let secHash := sha256 secret
  let i := beToNat secHash % (nCurve - 1) + 1
  let iBytes := toBytesBEMin i
  iBytes ++ List.replicate (32 - iBytes.length) 0

/-- The byte string claimed by the specification for `from_secret`: the
32-byte big-endian encoding, left-padded with leading zero bytes, of
`1 + (SHA256(secret) mod (curve_order - 1))`. -/
def fromSecretSpec (secret : List Nat) : List Nat :=
  toBytesBE32 (beToNat (sha256 secret) % (nCurve - 1) + 1)

/-! ## SHA-512 (the `sha2` crate's `Sha512`) -/

/-- Right rotation of a 64-bit word by `k` bits. -/
def rotr64 (k x : Nat) : Nat := (x >>> k) ||| ((x % 2 ^ k) <<< (64 - k))

/-- SHA-512 round constants. -/
def sha512K : List Nat :=
  [0x428a2f98d728ae22, 0x7137449123ef65cd, 0xb5c0fbcfec4d3b2f, 0xe9b5dba58189dbbc] ++
  [0x3956c25bf348b538, 0x59f111f1b605d019, 0x923f82a4af194f9b, 0xab1c5ed5da6d8118] ++
  [0xd807aa98a3030242, 0x12835b0145706fbe, 0x243185be4ee4b28c, 0x550c7dc3d5ffb4e2] ++
  [0x72be5d74f27b896f, 0x80deb1fe3b1696b1, 0x9bdc06a725c71235, 0xc19bf174cf692694] ++
  [0xe49b69c19ef14ad2, 0xefbe4786384f25e3, 0x0fc19dc68b8cd5b5, 0x240ca1cc77ac9c65] ++
  [0x2de92c6f592b0275, 0x4a7484aa6ea6e483, 0x5cb0a9dcbd41fbd4, 0x76f988da831153b5] ++
  [0x983e5152ee66dfab, 0xa831c66d2db43210, 0xb00327c898fb213f, 0xbf597fc7beef0ee4] ++
  [0xc6e00bf33da88fc2, 0xd5a79147930aa725, 0x06ca6351e003826f, 0x142929670a0e6e70] ++
  [0x27b70a8546d22ffc, 0x2e1b21385c26c926, 0x4d2c6dfc5ac42aed, 0x53380d139d95b3df] ++
  [0x650a73548baf63de, 0x766a0abb3c77b2a8, 0x81c2c92e47edaee6, 0x92722c851482353b] ++
  [0xa2bfe8a14cf10364, 0xa81a664bbc423001, 0xc24b8b70d0f89791, 0xc76c51a30654be30] ++
  [0xd192e819d6ef5218, 0xd69906245565a910, 0xf40e35855771202a, 0x106aa07032bbd1b8] ++
  [0x19a4c116b8d2d0c8, 0x1e376c085141ab53, 0x2748774cdf8eeb99, 0x34b0bcb5e19b48a8] ++
  [0x391c0cb3c5c95a63, 0x4ed8aa4ae3418acb, 0x5b9cca4f7763e373, 0x682e6ff3d6b2b8a3] ++
  [0x748f82ee5defb2fc, 0x78a5636f43172f60, 0x84c87814a1f0ab72, 0x8cc702081a6439ec] ++
  [0x90befffa23631e28, 0xa4506cebde82bde9, 0xbef9a3f7b2c67915, 0xc67178f2e372532b] ++
  [0xca273eceea26619c, 0xd186b8c721c0c207, 0xeada7dd6cde0eb1e, 0xf57d4f7fee6ed178] ++
  [0x06f067aa72176fba, 0x0a637dc5a2c898a6, 0x113f9804bef90dae, 0x1b710b35131c471b] ++
  [0x28db77f523047d84, 0x32caab7b40c72493, 0x3c9ebe0a15c9bebc, 0x431d67c49c100d4c] ++
  [0x4cc5d4becb3e42b6, 0x597f299cfc657e2a, 0x5fcb6fab3ad6faec, 0x6c44198c4a475817]

/-- SHA-512 initial hash state. -/
def sha512Init : List Nat :=
  [0x6a09e667f3bcc908, 0xbb67ae8584caa73b, 0x3c6ef372fe94f82b, 0xa54ff53a5f1d36f1,
   0x510e527fade682d1, 0x9b05688c2b3e6c1f, 0x1f83d9abfb41bd6b, 0x5be0cd19137e2179]

/-- Small sigma 0 of the SHA-512 message schedule. -/
def ssig0w (x : Nat) : Nat := rotr64 1 x ^^^ rotr64 8 x ^^^ (x >>> 7)

/-- Small sigma 1 of the SHA-512 message schedule. -/
def ssig1w (x : Nat) : Nat := rotr64 19 x ^^^ rotr64 61 x ^^^ (x >>> 6)

/-- Extension of the 16-word block to the 80-word SHA-512 message
schedule. -/
def sha512Extend : Nat → List Nat → List Nat
  | 0, _ => []
  | fuel + 1, w =>
    match w with
    | w0 :: w1 :: w2 :: w3 :: w4 :: w5 :: w6 :: w7 :: w8 :: w9 ::
      w10 :: w11 :: w12 :: w13 :: w14 :: w15 :: [] =>
      let nw := (ssig1w w14 + w9 + ssig0w w1 + w0) % 2 ^ 64
      nw :: sha512Extend fuel
        [w1, w2, w3, w4, w5, w6, w7, w8, w9, w10, w11, w12, w13, w14, w15, nw]
    | _ => []

/-- One SHA-512 round on the working variables. -/
def sha512Round (s : Sha2State) (kw : Nat × Nat) : Sha2State :=
  let bsig1 := rotr64 14 s.e ^^^ rotr64 18 s.e ^^^ rotr64 41 s.e
  let ch := (s.e &&& s.f) ^^^ ((s.e ^^^ 0xffffffffffffffff) &&& s.g)
  let t1 := (s.h + bsig1 + ch + kw.1 + kw.2) % 2 ^ 64
  let bsig0 := rotr64 28 s.a ^^^ rotr64 34 s.a ^^^ rotr64 39 s.a
  let maj := (s.a &&& s.b) ^^^ (s.a &&& s.c) ^^^ (s.b &&& s.c)
  let t2 := (bsig0 + maj) % 2 ^ 64
  ⟨(t1 + t2) % 2 ^ 64, s.a, s.b, s.c, (s.d + t1) % 2 ^ 64, s.e, s.f, s.g⟩

/-- SHA-512 compression of one 16-word block. -/
def sha512Compress (hs : List Nat) (block : List Nat) : List Nat :=
  match hs with
  | [h0, h1, h2, h3, h4, h5, h6, h7] =>
    let w := block ++ sha512Extend 64 block
    let st := (w.zip sha512K).foldl sha512Round ⟨h0, h1, h2, h3, h4, h5, h6, h7⟩
    [(h0 + st.a) % 2 ^ 64, (h1 + st.b) % 2 ^ 64, (h2 + st.c) % 2 ^ 64,
     (h3 + st.d) % 2 ^ 64, (h4 + st.e) % 2 ^ 64, (h5 + st.f) % 2 ^ 64,
     (h6 + st.g) % 2 ^ 64, (h7 + st.h) % 2 ^ 64]
  | _ => hs

/-- Big-endian 64-bit words of a byte list (length a multiple of 8). -/
def bytesToWords64 : List Nat → List Nat
  | b0 :: b1 :: b2 :: b3 :: b4 :: b5 :: b6 :: b7 :: rest =>
    (((((((b0 * 256 + b1) * 256 + b2) * 256 + b3) * 256 + b4) * 256 + b5) *
        256 + b6) * 256 + b7) :: bytesToWords64 rest
  | _ => []

/-- Big-endian bytes of a list of 64-bit words. -/
def words64ToBytes : List Nat → List Nat
  | [] => []
  | w :: rest =>
    w / 2 ^ 56 % 256 :: w / 2 ^ 48 % 256 :: w / 2 ^ 40 % 256 ::
      w / 2 ^ 32 % 256 :: w / 2 ^ 24 % 256 :: w / 2 ^ 16 % 256 ::
      w / 2 ^ 8 % 256 :: w % 256 :: words64ToBytes rest

/-- Merkle–Damgård padding for 128-byte blocks with a 128-bit length field
(as in SHA-512); message lengths stay far below `2 ^ 61` bytes here, so the
upper half of the length field is zero. -/
def mdPad128 (msg : List Nat) : List Nat :=
  let len := msg.length
  let zeros := (239 - len % 128) % 128
  msg ++ 0x80 :: List.replicate zeros 0 ++ List.replicate 8 0 ++
    [u64 (len * 8) / 256 ^ 7 % 256, u64 (len * 8) / 256 ^ 6 % 256,
     u64 (len * 8) / 256 ^ 5 % 256, u64 (len * 8) / 256 ^ 4 % 256,
     u64 (len * 8) / 256 ^ 3 % 256, u64 (len * 8) / 256 ^ 2 % 256,
     u64 (len * 8) / 256 ^ 1 % 256, u64 (len * 8) % 256]

/-- SHA-512 digest (64 bytes) of a byte list (`Sha512::digest`). -/
def sha512 (msg : List Nat) : List Nat :=
  let padded := mdPad128 msg
  let ws := bytesToWords64 padded
  let blocks := chunksOf 16 ws.length ws
  words64ToBytes (blocks.foldl sha512Compress sha512Init)

/-! ## HMAC (the `hmac` crate) -/

/-- HMAC-SHA512 (`Hmac<Sha512>`), block size 128 bytes. -/
def hmacSha512 (key msg : List Nat) : List Nat :=
  let k0 := if key.length > 128 then sha512 key else key
  let kPad := k0 ++ List.replicate (128 - k0.length) 0
  let ipad := kPad.map (fun b => b ^^^ 0x36)
  let opad := kPad.map (fun b => b ^^^ 0x5c)
  sha512 (opad ++ sha512 (ipad ++ msg))

/-- HMAC-SHA256 (used by the deterministic ECDSA nonce function), block
size 64 bytes. -/
def hmacSha256 (key msg : List Nat) : List Nat :=
  let k0 := if key.length > 64 then sha256 key else key
  let kPad := k0 ++ List.replicate (64 - k0.length) 0
  let ipad := kPad.map (fun b => b ^^^ 0x36)
  let opad := kPad.map (fun b => b ^^^ 0x5c)
  sha256 (opad ++ sha256 (ipad ++ msg))

/-! ## Errors and failure modes

The crate's `error.rs` is not among the embedded sources, so the error
enumeration is modelled from the specification. -/

/-- Modelled from the spec: the discriminated error values of the library
(`error.rs` is referenced by the sources but not itself among them).  Each
constructor mirrors one error variant named by the sources or the
specification, carrying only the data the sources attach to it. -/
inductive LibErr where
  /-- `ArrayStringError::TooLong`: a label longer than 32 bytes. -/
  | tooLong : LibErr
  /-- `PublicKeyError::BytesDecodeErrorWrongLength`. -/
  | bytesWrongLength : LibErr
  /-- `HexDecodeErrorWrongLength`. -/
  | hexWrongLength : LibErr
  /-- `ByteDecodeError`: a failed hex digit parse. -/
  | byteDecode : LibErr
  /-- `PublicKeyError::Bech32InvalidEncoding`. -/
  | bech32InvalidEncoding : LibErr
  /-- `PublicKeyError::Bech32InvalidBase32`. -/
  | bech32InvalidBase32 : LibErr
  /-- `PublicKeyError::Bech32WrongLength`. -/
  | bech32WrongLength : LibErr
  /-- An error returned by `bech32::encode` (invalid human-readable
  part). -/
  | bech32Encode : LibErr
  /-- `PublicKeyError::Base64DecodeError`. -/
  | base64Decode : LibErr
  /-- `HdWalletError::InvalidPathSpec`, carrying the offending path
  text. -/
  | invalidPathSpec (path : List Nat) : LibErr
  /-- `HdWalletError::Bip39Error(Bip39Error::BadWordCount)`. -/
  | badWordCount (n : Nat) : LibErr
  /-- The `secp256k1` crate rejecting a secret key (zero or not below the
  curve order). -/
  | invalidSecretKey : LibErr
  /-- The `secp256k1` crate rejecting a scalar (not below the curve
  order). -/
  | invalidScalar : LibErr
  /-- The `secp256k1` crate rejecting a tweaked key (degenerate
  result). -/
  | invalidTweak : LibErr
deriving DecidableEq

/-- Outcome channel of an embedded Rust computation: an ordinary returned
error, or a panic (an `unwrap` of an error value, which aborts the
process). -/
inductive Failure where
  | err (e : LibErr) : Failure
  | panicked : Failure
deriving DecidableEq

instance {ε α : Type} [DecidableEq ε] [DecidableEq α] : DecidableEq (Except ε α) :=
  fun x y =>
    match x, y with
    | .error a, .error b =>
      if h : a = b then .isTrue (by rw [h]) else .isFalse (by simp [h])
    | .error _, .ok _ => .isFalse (by simp)
    | .ok _, .error _ => .isFalse (by simp)
    | .ok a, .ok b =>
      if h : a = b then .isTrue (by rw [h]) else .isFalse (by simp [h])

/-! ## secp256k1 curve arithmetic (the `secp256k1` crate) -/

/-- Field prime of secp256k1. -/
def pCurve : Nat :=
  0xFFFFFFFFFFFFFFFFFFFFFFFFFFFFFFFFFFFFFFFFFFFFFFFFFFFFFFFEFFFFFC2F

/-- Modular exponentiation by squaring, with explicit fuel (300 always
suffices for 256-bit exponents). -/
def powModAux : Nat → Nat → Nat → Nat → Nat
  | 0, _, _, _ => 1
  | fuel + 1, b, e, m =>
    if e = 0 then 1
    else
      let r := powModAux fuel (b * b % m) (e / 2) m
      if e % 2 = 1 then r * b % m else r

/-- Modular inverse by Fermat's little theorem (the moduli used are the
primes `pCurve` and `nCurve`). -/
def invMod (a m : Nat) : Nat := powModAux 300 (a % m) (m - 2) m

/-- Affine point of the curve, with `none` the point at infinity. -/
def Point : Type := Option (Nat × Nat)

/-- Curve point addition on secp256k1 (affine coordinates, both inputs
reduced modulo the field prime). -/
def ecAdd : Point → Point → Point
  | none, q => q
  | p, none => p
  | some (x1, y1), some (x2, y2) =>
    if x1 = x2 then
      if (y1 + y2) % pCurve = 0 then none
      else
        let lam := 3 * x1 * x1 % pCurve * invMod (2 * y1 % pCurve) pCurve % pCurve
        let x3 := (lam * lam + (pCurve - x1) + (pCurve - x2)) % pCurve
        some (x3, (lam * ((x1 + (pCurve - x3)) % pCurve) + (pCurve - y1)) % pCurve)
    else
      let lam := (y2 + (pCurve - y1)) % pCurve *
        invMod ((x2 + (pCurve - x1)) % pCurve) pCurve % pCurve
      let x3 := (lam * lam + (pCurve - x1) + (pCurve - x2)) % pCurve
      some (x3, (lam * ((x1 + (pCurve - x3)) % pCurve) + (pCurve - y1)) % pCurve)

/-- Double-and-add scalar multiplication, most significant bit first. -/
def ecMulGo : Nat → Nat → Point → Point → Point
  | 0, _, _, acc => acc
  | fuel + 1, k, pt, acc =>
    let acc2 := ecAdd acc acc
    ecMulGo fuel k pt (if k.testBit fuel then ecAdd acc2 pt else acc2)

/-- Scalar multiplication of a curve point by a 256-bit scalar. -/
def ecMul (k : Nat) (pt : Point) : Point := ecMulGo 256 k pt none

/-- Generator of secp256k1. -/
def gPoint : Point :=
  some (0x79BE667EF9DCBBAC55A06295CE870B07029BFCDB2DCE28D959F2815B16F81798,
        0x483ADA7726A3C4655DA4FBFC0E1108A8FD17B448A68554199C47D08FFB10D4B8)

/-- Compressed 33-byte serialization of a public-key point
(`PublicKey::serialize` of the `secp256k1` crate).  The crate's public-key
type cannot hold the point at infinity; that unreachable case is mapped to
an all-zero buffer. -/
def serializePoint : Point → List Nat
  | none => List.replicate 33 0
  | some (x, y) => (if y % 2 = 0 then 2 else 3) :: toBytesBE32 x

/-- Validation and big-endian interpretation of 32 secret-key bytes
(`SecretKey::from_slice`): the value must be nonzero and strictly below the
curve order. -/
def secretKeyFromSlice (bs : List Nat) : Except Failure Nat :=
  if bs.length ≠ 32 then .error (.err .invalidSecretKey)
  else
    let v := beToNat bs
    if v = 0 ∨ nCurve ≤ v then .error (.err .invalidSecretKey) else .ok v

/-- Validation and big-endian interpretation of 32 scalar bytes
(`Scalar::from_be_bytes`): the value must be strictly below the curve
order (zero is allowed). -/
def scalarFromBeBytes (bs : List Nat) : Except Failure Nat :=
  let v := beToNat bs
  if nCurve ≤ v then .error (.err .invalidScalar) else .ok v

/-- Tweak addition on a secret key (`SecretKey::add_tweak`): the sum modulo
the curve order, failing when the result is the invalid all-zero key. -/
def addTweak (k t : Nat) : Except Failure Nat :=
  let r := (k + t) % nCurve
  if r = 0 then .error (.err .invalidTweak) else .ok r

/-- Serialization of the compressed public key of a valid secret scalar
(`PublicKeyEC::from_secret_key` followed by `serialize`). -/
def pubkeySerialize (sk : Nat) : List Nat := serializePoint (ecMul sk gPoint)

/-! ## Byte and text utilities (`utils.rs`)

Text strings are lists of Unicode code points; `utf8Encode` recovers the
byte length Rust's `str::len` reports. -/

/-- UTF-8 encoding of one code point. -/
def utf8Bytes (c : Nat) : List Nat :=
  if c < 0x80 then [c]
  else if c < 0x800 then
    [0xC0 ||| (c >>> 6), 0x80 ||| (c &&& 0x3F)]
  else if c < 0x10000 then
    [0xE0 ||| (c >>> 12), 0x80 ||| ((c >>> 6) &&& 0x3F), 0x80 ||| (c &&& 0x3F)]
  else
    [0xF0 ||| (c >>> 18), 0x80 ||| ((c >>> 12) &&& 0x3F),
     0x80 ||| ((c >>> 6) &&& 0x3F), 0x80 ||| (c &&& 0x3F)]

/-- UTF-8 encoding of a code-point string. -/
def utf8Encode (s : List Nat) : List Nat := (s.map utf8Bytes).flatten

/-- UTF-8 byte length of a code-point string (Rust `str::len`). -/
def utf8Len (s : List Nat) : Nat := (utf8Encode s).length

/-- Maximum label capacity (`ArrayString::MAX_LEN`). -/
def maxLabelLen : Nat := 32

/-- Validation of a label for the fixed-capacity string type
(`ArrayString::new`): the input's UTF-8 byte length may not exceed 32. -/
def arrayStringNew (input : List Nat) : Except Failure (List Nat) :=
  if utf8Len input > maxLabelLen then .error (.err .tooLong) else .ok input

/-- Value of one ASCII hex digit. -/
def hexDigitVal (c : Nat) : Option Nat :=
  if 48 ≤ c ∧ c ≤ 57 then some (c - 48)
  else if 97 ≤ c ∧ c ≤ 102 then some (c - 87)
  else if 65 ≤ c ∧ c ≤ 70 then some (c - 55)
  else none

/-- Accumulating base-16 parse of a nonempty digit string. -/
def hexDigitsVal : List Nat → Option Nat
  | [] => none
  | [c] => hexDigitVal c
  | c :: rest =>
    match hexDigitVal c, hexDigitsVal rest with
    | some hi, some lo => some (hi * 16 + lo)
    | _, _ => none

/-- Base-16 integer parse of a 1–2 character chunk
(`u8::from_str_radix(_, 16)`), which also accepts a single leading plus
sign. -/
def u8FromStrRadix16 (chunk : List Nat) : Except Failure Nat :=
  let digits := match chunk with
    | 43 :: rest => rest
    | cs => cs
  match hexDigitsVal digits with
  | some v => .ok v
  | none => .error (.err .byteDecode)

/-- Chunks of two characters, with a final odd chunk of one
(`slice::chunks(2)`). -/
def chunksTwo : List Nat → List (List Nat)
  | [] => []
  | [a] => [[a]]
  | a :: b :: rest => [a, b] :: chunksTwo rest

/-- Embedding of `hex_str_to_bytes`: strip an optional `0x`, then parse
each two-character chunk (a trailing odd chunk is parsed as a single hex
digit). -/
def hexStrToBytes (s : List Nat) : Except Failure (List Nat) :=
  let s := if s.take 2 = [48, 120] then s.drop 2 else s
  (chunksTwo s).mapM u8FromStrRadix16

/-- Lower-case hex digit character of a value below 16. -/
def hexDigitChar (n : Nat) : Nat := if n < 10 then 48 + n else 87 + n

/-- Embedding of `bytes_to_hex_str`: two lower-case hex digits per
byte. -/
def bytesToHexStr (bs : List Nat) : List Nat :=
  (bs.map (fun b => [hexDigitChar (b / 16), hexDigitChar (b % 16)])).flatten

/-- Hex rendering of a secret key's 32 bytes
(`SecretKey::display_secret`). -/
def displaySecret (v : Nat) : List Nat := bytesToHexStr (toBytesBE32 v)

/-! ## HD derivation (`master_key_from_seed`, `get_child_key`) -/

/-- The fixed HMAC key `b"Bitcoin seed"`. -/
def bitcoinSeedKey : List Nat :=
  [66, 105, 116, 99, 111, 105, 110, 32, 115, 101, 101, 100]

/-- The part of `master_key_from_seed` after the keyed hash: split the
64-byte HMAC output into candidate scalar and chain code, then `unwrap` the
secret-key validity check — an invalid candidate aborts with a panic, it is
not returned as an error. -/
def masterKeyFromHash (hash : List Nat) : Except Failure (List Nat × List Nat) :=
  let masterSecretKey := hash.take 32
  let masterChainCode := hash.drop 32
  match secretKeyFromSlice masterSecretKey with
  | .error _ => .error .panicked
  | .ok _ => .ok (masterSecretKey, masterChainCode)

/-- Embedding of `master_key_from_seed`: HMAC-SHA512 keyed with
`b"Bitcoin seed"` over the seed bytes, then the split-and-check step. -/
def masterKeyFromSeed (seedBytes : List Nat) : Except Failure (List Nat × List Nat) :=
  masterKeyFromHash (hmacSha512 bitcoinSeedKey seedBytes)

/-- Effective child index: `2u32.pow(31) + i` for a hardened step, over
wrapping 32-bit arithmetic (release-mode Rust addition), and `i` itself
otherwise. -/
def effectiveIndex (i : Nat) (hardened : Bool) : Nat :=
  if hardened then (2 ^ 31 + i) % 2 ^ 32 else i

/-- Embedding of `get_child_key` (BIP32 child derivation).  Failures are
panics: every fallible step in the source is `unwrap`ped. -/
def getChildKey (kParent cParent : List Nat) (i : Nat) (hardened : Bool) :
    Except Failure (List Nat × List Nat) :=
  let ie := effectiveIndex i hardened
  let keyed : Except Failure (List Nat) :=
    if hardened then .ok (0 :: kParent)
    else
      match secretKeyFromSlice kParent with
      | .error _ => .error .panicked
      | .ok sk => .ok (pubkeySerialize sk)
  match keyed with
  | .error f => .error f
  | .ok keyMaterial =>
    let lParam := hmacSha512 cParent (keyMaterial ++ toBytesBE4 ie)
    match secretKeyFromSlice (lParam.take 32) with
    | .error _ => .error .panicked
    | .ok parseIL =>
      match scalarFromBeBytes kParent with
      | .error _ => .error .panicked
      | .ok tweak =>
        match addTweak parseIL tweak with
        | .error _ => .error .panicked
        | .ok childKey =>
          match hexStrToBytes (displaySecret childKey) with
          | .error _ => .error .panicked
          | .ok childKeyRes => .ok (childKeyRes, lParam.drop 32)

/-! ## Path parsing (`PrivateKey::from_hd_wallet_path`) -/

/-- Modelled from the spec: the mnemonic (seed-word-list) component is an
external collaborator outside the core; a mnemonic is modelled as carrying
its phrase bytes, with parsing failing exactly on an empty phrase. -/
def mnemonicFromStr (phrase : List Nat) : Except Failure (List Nat) :=
  if phrase = [] then .error (.err (.badWordCount 0)) else .ok phrase

/-- Modelled from the spec: the mnemonic-to-seed derivation (a key
stretching of phrase and passphrase) is out of scope; it is modelled as the
concatenation of the two byte strings. -/
def mnemonicToSeed (m passphrase : List Nat) : List Nat := m ++ passphrase

/-- Splitting a string at every occurrence of a separator character
(`str::split`): `n` separators yield `n + 1` (possibly empty) pieces. -/
def splitOn (sep : Nat) : List Nat → List (List Nat)
  | [] => [[]]
  | c :: rest =>
    match splitOn sep rest with
    | [] => [[]]
    | g :: gs => if c = sep then [] :: g :: gs else (c :: g) :: gs

/-- Trimming every leading and trailing occurrence of a character
(`str::trim_matches` with a char pattern). -/
def trimMatches (c : Nat) (s : List Nat) : List Nat :=
  ((s.dropWhile (· = c)).reverse.dropWhile (· = c)).reverse

/-- Embedding of `str::parse::<u32>`: an optional leading plus sign, one or
more ASCII digits, and a value below `2 ^ 32`. -/
def parseU32 (s : List Nat) : Option Nat :=
  let digits := match s with
    | 43 :: rest => rest
    | cs => cs
  if digits = [] then none
  else if digits.all (fun c => 48 ≤ c && c ≤ 57) then
    let v := digits.foldl (fun a c => a * 10 + (c - 48)) 0
    if v < 2 ^ 32 then some v else none
  else none

/-- The per-segment loop of `from_hd_wallet_path`: detect the hardening
marker (an apostrophe, code point 39), trim it from both ends, parse the
index, and derive the child; a segment that fails to parse is an
`InvalidPathSpec` carrying the whole path text. -/
def deriveChildren (path : List Nat) :
    List (List Nat) → List Nat × List Nat → Except Failure (List Nat × List Nat)
  | [], st => .ok st
  | seg :: rest, (sk, cc) =>
    let hardened := seg.contains 39
    let val := trimMatches 39 seg
    match parseU32 val with
    | some n =>
      match getChildKey sk cc n hardened with
      | .error f => .error f
      | .ok (s, c) => deriveChildren path rest (s, c)
    | none => .error (.err (.invalidPathSpec path))

/-- Embedding of `PrivateKey::from_hd_wallet_path`: require the leading
root marker `m` (code point 109) and the absence of a reverse slash (code
point 92), parse the phrase, derive the master pair, then fold the child
derivation over every slash-separated segment after the first. -/
def fromHdWalletPath (path phrase passphrase : List Nat) :
    Except Failure (List Nat) :=
  if path.head? ≠ some 109 ∨ path.contains 92 then
    .error (.err (.invalidPathSpec path))
  else
    match mnemonicFromStr phrase with
    | .error f => .error f
    | .ok m =>
      let seedBytes := mnemonicToSeed m passphrase
      match masterKeyFromSeed seedBytes with
      | .error f => .error f
      | .ok (msk, mcc) =>
        match deriveChildren path ((splitOn 47 path).tail) (msk, mcc) with
        | .error f => .error f
        | .ok (sk, _) => .ok sk

/-! ## Bech32 (the `bech32` crate, `Variant::Bech32`) -/

/-- The bech32 data character set `qpzry9x8gf2tvdw0s3jn54khce6mua7l`. -/
def bech32Charset : List Nat :=
  [113, 112, 122, 114, 121, 57, 120, 56, 103, 102, 50, 116, 118, 100, 119,
   48, 115, 51, 106, 110, 53, 52, 107, 104, 99, 101, 54, 109, 117, 97, 55,
   108]

/-- Lower-casing of an ASCII character. -/
def lowerChar (c : Nat) : Nat := if 65 ≤ c ∧ c ≤ 90 then c + 32 else c

/-- Test for an ASCII upper-case letter. -/
def isUpperChar (c : Nat) : Bool := 65 ≤ c && c ≤ 90

/-- Test for an ASCII lower-case letter. -/
def isLowerChar (c : Nat) : Bool := 97 ≤ c && c ≤ 122

/-- Reverse character-set lookup for a bech32 data character (both cases),
`None` on a character outside the set. -/
def bech32CharsetRev (c : Nat) : Option Nat :=
  let i := bech32Charset.indexOf (lowerChar c)
  if i < 32 then some i else none

/-- One step of the bech32 checksum fold. -/
def polymodStep (chk v : Nat) : Nat :=
  let b := chk >>> 25
  let c0 := ((chk &&& 0x1ffffff) <<< 5) ^^^ v
  let c1 := if b.testBit 0 then c0 ^^^ 0x3b6a57b2 else c0
  let c2 := if b.testBit 1 then c1 ^^^ 0x26508e6d else c1
  let c3 := if b.testBit 2 then c2 ^^^ 0x1ea119fa else c2
  let c4 := if b.testBit 3 then c3 ^^^ 0x3d4233dd else c3
  if b.testBit 4 then c4 ^^^ 0x2a1462b3 else c4

/-- The bech32 checksum fold over a list of 5-bit values. -/
def polymod (chk : Nat) (vs : List Nat) : Nat := vs.foldl polymodStep chk

/-- Expansion of the human-readable part into checksum inputs: the high
bits of every character, a zero, then the low five bits of every
character. -/
def hrpExpand (hrp : List Nat) : List Nat :=
  hrp.map (· >>> 5) ++ [0] ++ hrp.map (· &&& 31)

/-- The six checksum characters appended by bech32 encoding (checksum
constant 1 for `Variant::Bech32`). -/
def createChecksum (hrp data : List Nat) : List Nat :=
  let pm := polymod 1 (hrpExpand hrp ++ data ++ [0, 0, 0, 0, 0, 0]) ^^^ 1
  (List.range 6).map (fun i => (pm >>> (5 * (5 - i))) &&& 31)

/-- Case classification of a human-readable part. -/
inductive HrpCase where
  | upper : HrpCase
  | lower : HrpCase
  | none : HrpCase
deriving DecidableEq

/-- Validation of a human-readable part (`check_hrp`): nonempty, at most 83
bytes, all bytes in `33..=126`, and not mixed-case. -/
def checkHrp (hrp : List Nat) : Option HrpCase :=
  if hrp = [] ∨ utf8Len hrp > 83 then none
  else if ¬ hrp.all (fun c => 33 ≤ c && c ≤ 126) then none
  else if hrp.any isUpperChar then
    if hrp.any isLowerChar then none else some .upper
  else if hrp.any isLowerChar then some .lower
  else some .none

/-- Bech32 encoding (`bech32::encode` with `Variant::Bech32`): validate the
human-readable part, lower-case it, and append the data part and checksum
in the data character set after the separator `1`. -/
def bech32Encode (hrp data : List Nat) : Except Failure (List Nat) :=
  match checkHrp hrp with
  | Option.none => .error (.err .bech32Encode)
  | Option.some _ =>
    let hrpLower := hrp.map lowerChar
    .ok (hrpLower ++ [49] ++
      (data ++ createChecksum hrpLower data).map (fun v => bech32Charset.getD v 0))

/-- Index of the last occurrence of a character (`str::rfind`). -/
def lastIndexOf (c : Nat) : List Nat → Option Nat
  | [] => none
  | x :: rest =>
    match lastIndexOf c rest with
    | some i => some (i + 1)
    | none => if x = c then some 0 else none

/-- Bech32 decoding (`bech32::decode`): split at the last separator,
reject mixed case, validate the human-readable part, map the data
characters back to 5-bit values, and verify the checksum.  All failures
are collapsed to `Option.none`, matching `from_bech32`, which maps every
decode error to one error value. -/
def bech32Decode (s : List Nat) : Option (List Nat × List Nat) :=
  match lastIndexOf 49 s with
  | none => none
  | some sep =>
    let rawHrp := s.take sep
    let rawData := s.drop (sep + 1)
    if s.any isUpperChar ∧ s.any isLowerChar then none
    else
      match checkHrp rawHrp with
      | none => none
      | some _ =>
        let hrpLower := rawHrp.map lowerChar
        match rawData.mapM bech32CharsetRev with
        | none => none
        | some data =>
          if data.length < 6 then none
          else if polymod 1 (hrpExpand hrpLower ++ data) = 1 then
            some (hrpLower, data.take (data.length - 6))
          else none

/-- The inner `while bits >= 5` emission loop of the 8-to-5 regrouping,
fuelled by the current bit count (which strictly bounds the number of
five-bit chunks that can be emitted). -/
def squashLoop : Nat → Nat → Nat → List Nat × Nat
  | 0, _, bits => ([], bits)
  | fuel + 1, acc, bits =>
    if 5 ≤ bits then
      let c := (acc >>> (bits - 5)) &&& 31
      let (rest, b) := squashLoop fuel acc (bits - 5)
      (c :: rest, b)
    else ([], bits)

/-- The byte-consuming loop of `ToBase32::write_base32`: shift each byte
into a wrapping 64-bit buffer and emit full five-bit chunks, then pad the
final partial chunk with zero bits. -/
def toBase32Go : List Nat → Nat → Nat → List Nat
  | [], acc, bits =>
    if 0 < bits then [(acc <<< (5 - bits)) &&& 31] else []
  | b :: rest, acc, bits =>
    let acc2 := u64 ((acc <<< 8) ||| b)
    let (cs, bits2) := squashLoop (bits + 8) acc2 (bits + 8)
    cs ++ toBase32Go rest acc2 bits2

/-- Conversion of bytes to the bech32 data alphabet (8-bit to 5-bit
regrouping with zero padding). -/
def toBase32 (bs : List Nat) : List Nat := toBase32Go bs 0 0

/-- The inner `while bits >= 8` emission loop of the 5-to-8 regrouping. -/
def emit8Loop : Nat → Nat → Nat → List Nat × Nat
  | 0, _, bits => ([], bits)
  | fuel + 1, acc, bits =>
    if 8 ≤ bits then
      let c := (acc >>> (bits - 8)) &&& 255
      let (rest, b) := emit8Loop fuel acc (bits - 8)
      (c :: rest, b)
    else ([], bits)

/-- The value-consuming loop of `convert_bits(data, 5, 8, false)`: each
value must fit in five bits; the final leftover must be shorter than five
bits and all zero. -/
def fromBase32Go : List Nat → Nat → Nat → Option (List Nat)
  | [], acc, bits =>
    if 5 ≤ bits then none
    else if ((acc <<< (8 - bits)) &&& 255) ≠ 0 then none
    else some []
  | v :: rest, acc, bits =>
    if v >>> 5 ≠ 0 then none
    else
      let acc2 := u32 ((acc <<< 5) ||| v)
      let (bs, bits2) := emit8Loop (bits + 5) acc2 (bits + 5)
      match fromBase32Go rest acc2 bits2 with
      | some out => some (bs ++ out)
      | none => none

/-- Conversion from the bech32 data alphabet back to bytes
(`FromBase32 for Vec<u8>`, no padding allowed). -/
def fromBase32 (data : List Nat) : Option (List Nat) := fromBase32Go data 0 0

/-! ## RIPEMD-160 (the `ripemd` crate) -/

/-- Left-lane message word order of RIPEMD-160. -/
def ripemdZL : List Nat :=
  [0, 1, 2, 3, 4, 5, 6, 7, 8, 9, 10, 11, 12, 13, 14, 15,
   7, 4, 13, 1, 10, 6, 15, 3, 12, 0, 9, 5, 2, 14, 11, 8,
   3, 10, 14, 4, 9, 15, 8, 1, 2, 7, 0, 6, 13, 11, 5, 12,
   1, 9, 11, 10, 0, 8, 12, 4, 13, 3, 7, 15, 14, 5, 6, 2,
   4, 0, 5, 9, 7, 12, 2, 10, 14, 1, 3, 8, 11, 6, 15, 13]

/-- Right-lane message word order of RIPEMD-160. -/
def ripemdZR : List Nat :=
  [5, 14, 7, 0, 9, 2, 11, 4, 13, 6, 15, 8, 1, 10, 3, 12,
   6, 11, 3, 7, 0, 13, 5, 10, 14, 15, 8, 12, 4, 9, 1, 2,
   15, 5, 1, 3, 7, 14, 6, 9, 11, 8, 12, 2, 10, 0, 4, 13,
   8, 6, 4, 1, 3, 11, 15, 0, 5, 12, 2, 13, 9, 7, 10, 14,
   12, 15, 10, 4, 1, 5, 8, 7, 6, 2, 13, 14, 0, 3, 9, 11]

/-- Left-lane rotation amounts of RIPEMD-160. -/
def ripemdSL : List Nat :=
  [11, 14, 15, 12, 5, 8, 7, 9, 11, 13, 14, 15, 6, 7, 9, 8,
   7, 6, 8, 13, 11, 9, 7, 15, 7, 12, 15, 9, 11, 7, 13, 12,
   11, 13, 6, 7, 14, 9, 13, 15, 14, 8, 13, 6, 5, 12, 7, 5,
   11, 12, 14, 15, 14, 15, 9, 8, 9, 14, 5, 6, 8, 6, 5, 12,
   9, 15, 5, 11, 6, 8, 13, 12, 5, 12, 13, 14, 11, 8, 5, 6]

/-- Right-lane rotation amounts of RIPEMD-160. -/
def ripemdSR : List Nat :=
  [8, 9, 9, 11, 13, 15, 15, 5, 7, 7, 8, 11, 14, 14, 12, 6,
   9, 13, 15, 7, 12, 8, 9, 11, 7, 7, 12, 7, 6, 15, 13, 11,
   9, 7, 15, 11, 8, 6, 6, 14, 12, 13, 5, 14, 13, 13, 7, 5,
   15, 5, 8, 11, 14, 14, 6, 14, 6, 9, 12, 9, 12, 5, 15, 8,
   8, 5, 12, 9, 12, 5, 14, 6, 8, 13, 6, 5, 15, 13, 11, 11]

/-- Left rotation of a 32-bit word. -/
def rotl32 (n x : Nat) : Nat :=
  ((x <<< n) ||| (x >>> (32 - n))) &&& 0xffffffff

/-- The RIPEMD-160 selection function for step `j` of 80. -/
def ripemdF (j x y z : Nat) : Nat :=
  if j < 16 then x ^^^ y ^^^ z
  else if j < 32 then (x &&& y) ||| ((x ^^^ 0xffffffff) &&& z)
  else if j < 48 then (x ||| (y ^^^ 0xffffffff)) ^^^ z
  else if j < 64 then (x &&& z) ||| (y &&& (z ^^^ 0xffffffff))
  else x ^^^ (y ||| (z ^^^ 0xffffffff))

/-- Left-lane round constants of RIPEMD-160, per 16-step group. -/
def ripemdKL : List Nat := [0, 0x5A827999, 0x6ED9EBA1, 0x8F1BBCDC, 0xA953FD4E]

/-- Right-lane round constants of RIPEMD-160, per 16-step group. -/
def ripemdKR : List Nat := [0x50A28BE6, 0x5C4DD124, 0x6D703EF3, 0x7A6D76E9, 0]

/-- One lane step of RIPEMD-160: `fsel` selects the function index (the
right lane uses `79 - j`). -/
def ripemdStep (x : List Nat) (useRight : Bool) (j : Nat)
    (st : Nat × Nat × Nat × Nat × Nat) : Nat × Nat × Nat × Nat × Nat :=
  let (a, b, c, d, e) := st
  let z := (if useRight then ripemdZR else ripemdZL).getD j 0
  let s := (if useRight then ripemdSR else ripemdSL).getD j 0
  let k := (if useRight then ripemdKR else ripemdKL).getD (j / 16) 0
  let fj := if useRight then 79 - j else j
  let t := (rotl32 s ((a + ripemdF fj b c d + x.getD z 0 + k) % 2 ^ 32) + e) % 2 ^ 32
  (e, t, b, rotl32 10 c, d)

/-- Eighty steps of one RIPEMD-160 lane. -/
def ripemdLane (x : List Nat) (useRight : Bool)
    (st : Nat × Nat × Nat × Nat × Nat) : Nat × Nat × Nat × Nat × Nat :=
  (List.range 80).foldl (fun s j => ripemdStep x useRight j s) st

/-- Little-endian 32-bit words of a byte list (length a multiple of 4). -/
def bytesToWords32LE : List Nat → List Nat
  | b0 :: b1 :: b2 :: b3 :: rest =>
    (((b3 * 256 + b2) * 256 + b1) * 256 + b0) :: bytesToWords32LE rest
  | _ => []

/-- RIPEMD-160 compression of one 16-word block. -/
def ripemdCompress (hs : List Nat) (block : List Nat) : List Nat :=
  match hs with
  | [h0, h1, h2, h3, h4] =>
    let (al, bl, cl, dl, el) := ripemdLane block false (h0, h1, h2, h3, h4)
    let (ar, br, cr, dr, er) := ripemdLane block true (h0, h1, h2, h3, h4)
    [(h1 + cl + dr) % 2 ^ 32, (h2 + dl + er) % 2 ^ 32, (h3 + el + ar) % 2 ^ 32,
     (h4 + al + br) % 2 ^ 32, (h0 + bl + cr) % 2 ^ 32]
  | _ => hs

/-- Merkle–Damgård padding with a little-endian 64-bit length field (as in
RIPEMD-160). -/
def mdPad64LE (msg : List Nat) : List Nat :=
  let len := msg.length
  let zeros := (119 - len % 64) % 64
  msg ++ 0x80 :: List.replicate zeros 0 ++
    [u64 (len * 8) % 256, u64 (len * 8) / 256 ^ 1 % 256,
     u64 (len * 8) / 256 ^ 2 % 256, u64 (len * 8) / 256 ^ 3 % 256,
     u64 (len * 8) / 256 ^ 4 % 256, u64 (len * 8) / 256 ^ 5 % 256,
     u64 (len * 8) / 256 ^ 6 % 256, u64 (len * 8) / 256 ^ 7 % 256]

/-- Little-endian bytes of a list of 32-bit words. -/
def words32ToBytesLE : List Nat → List Nat
  | [] => []
  | w :: rest =>
    w % 256 :: w / 2 ^ 8 % 256 :: w / 2 ^ 16 % 256 :: w / 2 ^ 24 % 256 ::
      words32ToBytesLE rest

/-- RIPEMD-160 digest (20 bytes) of a byte list (`Ripemd160::digest`). -/
def ripemd160 (msg : List Nat) : List Nat :=
  let padded := mdPad64LE msg
  let ws := bytesToWords32LE padded
  let blocks := chunksOf 16 ws.length ws
  words32ToBytesLE (blocks.foldl ripemdCompress
    [0x67452301, 0xEFCDAB89, 0x98BADCFE, 0x10325476, 0xC3D2E1F0])

/-! ## Base-64 (the `base64` crate, `STANDARD_NO_PAD`) -/

/-- Value of one standard-alphabet base-64 character. -/
def b64Val (c : Nat) : Option Nat :=
  if 65 ≤ c ∧ c ≤ 90 then some (c - 65)
  else if 97 ≤ c ∧ c ≤ 122 then some (c - 71)
  else if 48 ≤ c ∧ c ≤ 57 then some (c + 4)
  else if c = 43 then some 62
  else if c = 47 then some 63
  else none

/-- Base-64 decoding with the standard alphabet and no padding: full
four-character groups yield three bytes; a trailing group of two or three
characters yields one or two bytes and must have zero trailing bits; a
trailing group of one character is invalid, as is any character outside
the alphabet (including `=`). -/
def base64Decode : List Nat → Except Failure (List Nat)
  | [] => .ok []
  | [_] => .error (.err .base64Decode)
  | [a, b] =>
    match b64Val a, b64Val b with
    | some va, some vb =>
      if vb &&& 0xF ≠ 0 then .error (.err .base64Decode)
      else .ok [(va <<< 2) ||| (vb >>> 4)]
    | _, _ => .error (.err .base64Decode)
  | [a, b, c] =>
    match b64Val a, b64Val b, b64Val c with
    | some va, some vb, some vc =>
      if vc &&& 0x3 ≠ 0 then .error (.err .base64Decode)
      else .ok [(va <<< 2) ||| (vb >>> 4), ((vb &&& 0xF) <<< 4) ||| (vc >>> 2)]
    | _, _, _ => .error (.err .base64Decode)
  | a :: b :: c :: d :: rest =>
    match b64Val a, b64Val b, b64Val c, b64Val d with
    | some va, some vb, some vc, some vd =>
      match base64Decode rest with
      | .ok out =>
        .ok ([(va <<< 2) ||| (vb >>> 4), ((vb &&& 0xF) <<< 4) ||| (vc >>> 2),
              ((vc &&& 0x3) <<< 6) ||| vd] ++ out)
      | .error f => .error f
    | _, _, _, _ => .error (.err .base64Decode)

/-! ## Public keys (`public_key.rs`) -/

/-- Embedding of `PublicKey`: a 33-byte compressed point plus a label (the
source's `prefix` field, an `ArrayString`). -/
structure PublicKey where
  bytes : List Nat
  label : List Nat
deriving DecidableEq

/-- The fallback label `cosmospub` (`PublicKey::DEFAULT_PREFIX`). -/
def defaultHrp : List Nat := [99, 111, 115, 109, 111, 115, 112, 117, 98]

/-- Embedding of `PublicKey::from_bytes`: the only validation is the label
length check of `ArrayString::new`. -/
def publicKeyFromBytes (bytes hrp : List Nat) : Except Failure PublicKey :=
  match arrayStringNew hrp with
  | .error f => .error f
  | .ok l => .ok ⟨bytes, l⟩

/-- Embedding of `PublicKey::from_slice`: length check, then
`from_bytes`. -/
def publicKeyFromSlice (bytes hrp : List Nat) : Except Failure PublicKey :=
  if bytes.length ≠ 33 then .error (.err .bytesWrongLength)
  else publicKeyFromBytes bytes hrp

/-- Embedding of `PublicKey::to_amino_bytes`: the fixed five-byte framing
constant followed by the point bytes. -/
def toAminoBytes (pk : PublicKey) : List Nat :=
  [0xEB, 0x5A, 0xE9, 0x87, 0x21] ++ pk.bytes

/-- Embedding of `PublicKey::to_bech32`: bech32 encoding of the amino
bytes under the given human-readable part. -/
def toBech32 (pk : PublicKey) (hrp : List Nat) : Except Failure (List Nat) :=
  bech32Encode hrp (toBase32 (toAminoBytes pk))

/-- Embedding of `PublicKey::from_bech32`: decode, regroup to bytes,
require exactly 38 bytes, strip the five amino bytes, rebuild the key
with the decoded human-readable part as label. -/
def fromBech32 (s : List Nat) : Except Failure PublicKey :=
  match bech32Decode s with
  | none => .error (.err .bech32InvalidEncoding)
  | some (hrp, data) =>
    match fromBase32 data with
    | none => .error (.err .bech32InvalidBase32)
    | some vec =>
      if vec.length ≠ 38 then .error (.err .bech32WrongLength)
      else publicKeyFromBytes (vec.drop 5) hrp

/-! ## Addresses (`address.rs` is not among the embedded sources) -/

/-- Modelled from the spec: an `Address` is a 20-byte hash paired with a
label for text rendering. -/
structure Address where
  bytes : List Nat
  label : List Nat
deriving DecidableEq

/-- Modelled from the spec: `Address::from_bytes` pairs the 20 hash bytes
with a label, validating only the label's length (the same fixed-capacity
label type as the public key's). -/
def addressFromBytes (bytes hrp : List Nat) : Except Failure Address :=
  match arrayStringNew hrp with
  | .error f => .error f
  | .ok l => .ok ⟨bytes, l⟩

/-- Embedding of `PublicKey::to_address_with_prefix`:
`RIPEMD160(SHA256(point))` paired with the given label. -/
def toAddressWithPrefix (pk : PublicKey) (hrp : List Nat) : Except Failure Address :=
  addressFromBytes ((ripemd160 (sha256 pk.bytes)).take 20) hrp

/-- The literal suffix `pub`. -/
def pubSuffix : List Nat := [112, 117, 98]

/-- Repeated removal of a trailing pattern (`str::trim_end_matches` with a
string pattern), fuelled by the string length. -/
def trimEndMatchesStr (pat : List Nat) : Nat → List Nat → List Nat
  | 0, s => s
  | fuel + 1, s =>
    if pat ≠ [] ∧ pat.isSuffixOf s then
      trimEndMatchesStr pat fuel (s.take (s.length - pat.length))
    else s

/-- Embedding of `PublicKey::to_address`: when the label ends with `pub`,
strip that suffix (repeatedly, per `trim_end_matches`); derive the address
under the resulting label, `unwrap`ping the result. -/
def toAddress (pk : PublicKey) : Except Failure Address :=
  let current := pk.label
  let newLabel :=
    if pubSuffix.isSuffixOf current then
      trimEndMatchesStr pubSuffix current.length current
    else current
  match toAddressWithPrefix pk newLabel with
  | .ok a => .ok a
  | .error _ => .error .panicked

/-- Embedding of `impl FromStr for PublicKey`: first the bech32 decode;
on its failure a hex decode, whose success with a length other than 33
surfaces a hex length error; only when the hex decode itself fails is the
base-64 decode attempted, whose error is surfaced. -/
def publicKeyFromStr (s : List Nat) : Except Failure PublicKey :=
  match fromBech32 s with
  | .ok k => .ok k
  | .error _ =>
    match hexStrToBytes s with
    | .ok bytes =>
      if bytes.length = 33 then publicKeyFromBytes (bytes.take 33) defaultHrp
      else .error (.err .hexWrongLength)
    | .error _ =>
      match base64Decode s with
      | .ok bytes =>
        if bytes.length = 33 then publicKeyFromBytes (bytes.take 33) defaultHrp
        else .error (.err .bytesWrongLength)
      | .error f => .error f

/-- Embedding of `PrivateKey::to_public_key`: validate the scalar with the
curve library (an invalid scalar is an error, propagated with `?`), derive
and compress the public point, and attach the label. -/
def toPublicKey (sk : List Nat) (hrp : List Nat) : Except Failure PublicKey :=
  match secretKeyFromSlice sk with
  | .error f => .error f
  | .ok v => publicKeyFromBytes (pubkeySerialize v) hrp

/-! ## Deterministic ECDSA (`secp256k1::sign_ecdsa` with the RFC 6979
nonce function) -/

/-- The candidate loop of the RFC 6979 nonce generation, fuelled (the
first candidate is overwhelmingly likely to be in range; the fuel models
the unbounded retry of the source library). -/
def nonceLoop : Nat → List Nat → List Nat → Nat
  | 0, _, _ => 0
  | fuel + 1, kKey, v =>
    let v2 := hmacSha256 kKey v
    let cand := beToNat v2
    if 0 < cand ∧ cand < nCurve then cand
    else
      let kKey2 := hmacSha256 kKey (v2 ++ [0])
      nonceLoop fuel kKey2 (hmacSha256 kKey2 v2)

/-- RFC 6979 deterministic nonce over HMAC-SHA256, no extra data (the
nonce function of the `secp256k1` crate's `sign_ecdsa`). -/
def rfc6979 (x h1 : List Nat) : Nat :=
  let v0 := List.replicate 32 1
  let k0 := List.replicate 32 0
  let k1 := hmacSha256 k0 (v0 ++ [0] ++ x ++ h1)
  let v1 := hmacSha256 k1 v0
  let k2 := hmacSha256 k1 (v1 ++ [1] ++ x ++ h1)
  let v2 := hmacSha256 k2 v1
  nonceLoop 64 k2 v2

/-- Compact 64-byte ECDSA signature (big-endian `r` then `s`, low-`s`
normalized) of a 32-byte digest under a valid secret key, with the
RFC 6979 nonce (`sign_ecdsa` followed by `serialize_compact`). -/
def signEcdsa (skBytes digest : List Nat) : List Nat :=
  let sk := beToNat skBytes
  let z := beToNat digest % nCurve
  let k := rfc6979 skBytes digest
  match ecMul k gPoint with
  | none => List.replicate 64 0
  | some (rx, _) =>
    let r := rx % nCurve
    let s := invMod k nCurve * ((z + r * sk) % nCurve) % nCurve
    let sLow := if s > nCurve / 2 then nCurve - s else s
    toBytesBE32 r ++ toBytesBE32 sLow

/-! ## Protobuf framing (the `prost` encoders of the
`cosmos_sdk_proto` transaction types) -/

/-- LEB128 varint encoding of a 64-bit value (at most ten bytes). -/
def varintGo : Nat → Nat → List Nat
  | 0, _ => []
  | fuel + 1, v => if v < 128 then [v] else (v % 128 + 128) :: varintGo fuel (v / 128)

/-- Protobuf varint of a value, truncated to 64 bits. -/
def varint (v : Nat) : List Nat := varintGo 10 (u64 v)

/-- A length-delimited protobuf field (wire type 2). -/
def lenDelim (fieldNum : Nat) (payload : List Nat) : List Nat :=
  varint (fieldNum * 8 + 2) ++ varint payload.length ++ payload

/-- A varint protobuf field (wire type 0), omitted at the default value
zero as `prost` does for plain scalar fields. -/
def varintField (fieldNum v : Nat) : List Nat :=
  if v = 0 then [] else varint (fieldNum * 8) ++ varint v

/-- Modelled from the spec: a transaction message (`Msg`, from the absent
`msg.rs`) is an opaque pre-encoded payload tagged with its type — exactly
a protobuf `Any` (type URL string plus value bytes). -/
structure ProtoAny where
  typeUrl : List Nat
  value : List Nat
deriving DecidableEq

/-- Protobuf encoding of an `Any`: string field 1, bytes field 2, each
omitted when empty. -/
def encodeAnyProto (a : ProtoAny) : List Nat :=
  (if a.typeUrl = [] then [] else lenDelim 1 (utf8Encode a.typeUrl)) ++
  (if a.value = [] then [] else lenDelim 2 a.value)

/-- Embedding of `TxBody` (the extension-option fields are always left
empty by the source and encode to nothing). -/
structure TxBody where
  messages : List ProtoAny
  memo : List Nat
  timeoutHeight : Nat
deriving DecidableEq

/-- Protobuf encoding of a `TxBody`: repeated `Any` field 1, string memo
field 2, uint64 timeout field 3. -/
def encodeTxBody (b : TxBody) : List Nat :=
  (b.messages.map (fun m => lenDelim 1 (encodeAnyProto m))).flatten ++
  (if b.memo = [] then [] else lenDelim 2 (utf8Encode b.memo)) ++
  varintField 3 b.timeoutHeight

/-- The `mode_info::Single` message (its field is the signing-mode
enum). -/
structure Single where
  mode : Nat
deriving DecidableEq

/-- Embedding of `ModeInfo` (a oneof holding the single-signer mode). -/
structure ModeInfo where
  sum : Option Single
deriving DecidableEq

/-- Protobuf encoding of a `ModeInfo`: the oneof member is emitted
whenever present. -/
def encodeModeInfo (m : ModeInfo) : List Nat :=
  match m.sum with
  | none => []
  | some s => lenDelim 1 (varintField 1 s.mode)

/-- Embedding of `SignerInfo`. -/
structure SignerInfo where
  publicKey : Option ProtoAny
  modeInfo : Option ModeInfo
  sequence : Nat
deriving DecidableEq

/-- Protobuf encoding of a `SignerInfo`: embedded messages are emitted
when present, the sequence number omitted at zero. -/
def encodeSignerInfo (si : SignerInfo) : List Nat :=
  (match si.publicKey with
   | none => []
   | some a => lenDelim 1 (encodeAnyProto a)) ++
  (match si.modeInfo with
   | none => []
   | some m => lenDelim 2 (encodeModeInfo m)) ++
  varintField 3 si.sequence

/-- Embedding of `AuthInfo`.  Modelled from the spec: the fee type
(`coin.rs` is absent) is opaque to the core beyond being serializable, so
a fee is carried as its canonical protobuf encoding bytes. -/
structure AuthInfo where
  signerInfos : List SignerInfo
  fee : Option (List Nat)
deriving DecidableEq

/-- Protobuf encoding of an `AuthInfo`: repeated `SignerInfo` field 1 and
the embedded fee message field 2. -/
def encodeAuthInfo (ai : AuthInfo) : List Nat :=
  (ai.signerInfos.map (fun si => lenDelim 1 (encodeSignerInfo si))).flatten ++
  (match ai.fee with
   | none => []
   | some f => lenDelim 2 f)

/-- Embedding of `SignDoc`. -/
structure SignDoc where
  bodyBytes : List Nat
  authInfoBytes : List Nat
  chainId : List Nat
  accountNumber : Nat
deriving DecidableEq

/-- Protobuf encoding of a `SignDoc`. -/
def encodeSignDoc (d : SignDoc) : List Nat :=
  (if d.bodyBytes = [] then [] else lenDelim 1 d.bodyBytes) ++
  (if d.authInfoBytes = [] then [] else lenDelim 2 d.authInfoBytes) ++
  (if d.chainId = [] then [] else lenDelim 3 (utf8Encode d.chainId)) ++
  varintField 4 d.accountNumber

/-- Embedding of `TxRaw`. -/
structure TxRaw where
  bodyBytes : List Nat
  authInfoBytes : List Nat
  signatures : List (List Nat)
deriving DecidableEq

/-- Protobuf encoding of a `TxRaw`: two bytes fields and the repeated
signature list. -/
def encodeTxRaw (t : TxRaw) : List Nat :=
  (if t.bodyBytes = [] then [] else lenDelim 1 t.bodyBytes) ++
  (if t.authInfoBytes = [] then [] else lenDelim 2 t.authInfoBytes) ++
  (t.signatures.map (fun s => lenDelim 3 s)).flatten

/-- Embedding of the `Tx` type returned for simulations. -/
structure Tx where
  body : Option TxBody
  authInfo : Option AuthInfo
  signatures : List (List Nat)
deriving DecidableEq

/-! ## Transaction assembly (`build_tx`, `get_signed_tx`,
`sign_std_msg`) -/

/-- Embedding of `MessageArgs`. -/
structure MessageArgs where
  sequence : Nat
  fee : List Nat
  timeoutHeight : Nat
  chainId : List Nat
  accountNumber : Nat
deriving DecidableEq

/-- The intermediate parts built once and reframed by both signing entry
points (`TxParts`). -/
structure TxParts where
  body : TxBody
  bodyBuf : List Nat
  authInfo : AuthInfo
  authBuf : List Nat
  signatures : List (List Nat)
deriving DecidableEq

/-- The type URL `/cosmos.crypto.secp256k1.PubKey`. -/
def secpPubkeyUrl : List Nat :=
  [47, 99, 111, 115, 109, 111, 115, 46, 99, 114, 121, 112, 116, 111, 46,
   115, 101, 99, 112, 50, 53, 54, 107, 49, 46, 80, 117, 98, 75, 101, 121]

/-- Protobuf encoding of `ProtoSecp256k1Pubkey` (`key` bytes field 1). -/
def encodeProtoSecpPubkey (key : List Nat) : List Nat :=
  if key = [] then [] else lenDelim 1 key

/-- Embedding of `PrivateKey::build_tx`: derive the public key, serialize
the body and auth info, build and serialize the sign doc, hash it and sign
the digest, and return all parts. -/
def buildTx (sk : List Nat) (messages : List ProtoAny) (args : MessageArgs)
    (memo : List Nat) : Except Failure TxParts :=
  match toPublicKey sk defaultHrp with
  | .error f => .error f
  | .ok ourPubkey =>
    let body : TxBody := ⟨messages, memo, args.timeoutHeight⟩
    let bodyBuf := encodeTxBody body
    let pkAny : ProtoAny := ⟨secpPubkeyUrl, encodeProtoSecpPubkey ourPubkey.bytes⟩
    let modeInfo : ModeInfo := ⟨some ⟨1⟩⟩
    let signerInfo : SignerInfo := ⟨some pkAny, some modeInfo, args.sequence⟩
    let authInfo : AuthInfo := ⟨[signerInfo], some args.fee⟩
    let authBuf := encodeAuthInfo authInfo
    let signDoc : SignDoc := ⟨bodyBuf, authBuf, args.chainId, args.accountNumber⟩
    let signdocBuf := encodeSignDoc signDoc
    match secretKeyFromSlice sk with
    | .error f => .error f
    | .ok _ =>
      let digest := sha256 signdocBuf
      let compact := signEcdsa sk digest
      .ok ⟨body, bodyBuf, authInfo, authBuf, [compact]⟩

/-- Embedding of `PrivateKey::get_signed_tx`: the simulation shape, a
structured `Tx` around the built parts. -/
def getSignedTx (sk : List Nat) (messages : List ProtoAny) (args : MessageArgs)
    (memo : List Nat) : Except Failure Tx :=
  match buildTx sk messages args memo with
  | .error f => .error f
  | .ok parts => .ok ⟨some parts.body, some parts.authInfo, parts.signatures⟩

/-- Embedding of `PrivateKey::sign_std_msg`: the broadcast shape, the
serialized `TxRaw` over the built parts. -/
def signStdMsg (sk : List Nat) (messages : List ProtoAny) (args : MessageArgs)
    (memo : List Nat) : Except Failure (List Nat) :=
  match buildTx sk messages args memo with
  | .error f => .error f
  | .ok parts =>
    .ok (encodeTxRaw ⟨parts.bodyBuf, parts.authBuf, parts.signatures⟩)

/-! ## Claim C1 -/

/-- C1: the specification claims `from_secret` left-pads the reduced
integer with leading zero bytes back to 32 bytes.  The code instead pushes
the padding zeros at the end of the big-endian buffer
(`i_bytes.push(0)`).  For the secret `"sec185"` the SHA-256 digest starts
with a zero byte, so the reduced value occupies 31 bytes and the two
encodings differ: the code returns the left-padded encoding's tail with a
zero byte appended (the value multiplied by 256), not the left-padded
encoding itself. -/
theorem fromSecret_sec185_pads_trailing :
    fromSecret [115, 101, 99, 49, 56, 53] ≠ fromSecretSpec [115, 101, 99, 49, 56, 53] ∧
    fromSecret [115, 101, 99, 49, 56, 53] =
      (fromSecretSpec [115, 101, 99, 49, 56, 53]).drop 1 ++ [0] := by
  decide

/-! ## Claim C2 -/

/-- C2 counterexample: at the intermediate state the claim quantifies over
— a 64-byte keyed-hash output whose first 32 bytes are the candidate
scalar — an all-zero candidate makes the derivation abort with a panic
(the `unwrap` on the key check), not return a `KeyDerivationError`
result. -/
theorem masterKeyFromHash_zero_candidate_panics :
    beToNat ((List.replicate 64 0).take 32) = 0 ∧
    masterKeyFromHash (List.replicate 64 0) = .error .panicked := by
  decide

/-- C2 as amended: `master_key_from_seed` is the keyed hash followed by
the split-and-check step, and whenever the candidate scalar (the first 32
bytes of the hash) is zero or at least the curve order, that step panics —
it does not return an explicit error result. -/
theorem masterKeyFromSeed_invalid_candidate_panics :
    (∀ seedBytes, masterKeyFromSeed seedBytes =
      masterKeyFromHash (hmacSha512 bitcoinSeedKey seedBytes)) ∧
    (∀ hash, beToNat (hash.take 32) = 0 ∨ nCurve ≤ beToNat (hash.take 32) →
      masterKeyFromHash hash = .error .panicked) := by
  constructor
  · intro seedBytes
    rfl
  · intro hash hbad
    obtain ⟨f, hf⟩ : ∃ f, secretKeyFromSlice (hash.take 32) = .error f := by
      unfold secretKeyFromSlice
      split
      · exact ⟨.err .invalidSecretKey, rfl⟩
      · exact ⟨.err .invalidSecretKey, by simp [hbad]⟩
    unfold masterKeyFromHash
    simp only [hf]

/-- C2 witness: the amended theorem applied at the all-zero hash. -/
theorem masterKeyFromSeed_invalid_candidate_panics_witness :
    (beToNat ((List.replicate 64 0).take 32) = 0 ∨
      nCurve ≤ beToNat ((List.replicate 64 0).take 32)) ∧
    masterKeyFromHash (List.replicate 64 0) = .error .panicked :=
  ⟨Or.inl (by decide),
    masterKeyFromSeed_invalid_candidate_panics.2 (List.replicate 64 0)
      (Or.inl (by decide))⟩

/-! ## Claim C6 -/

/-- Embedding of `PrivateKey::from_array`: no validation at all. -/
def fromArray (a : List Nat) : List Nat := a

/-- C6 counterexample: the all-zero 32-byte private key (constructible
through `from_array` without validation) makes `to_public_key` fail even
though the empty label is perfectly valid, contradicting the claim that
the label is the only failure source. -/
theorem toPublicKey_zero_key_fails :
    toPublicKey (fromArray (List.replicate 32 0)) [] = .error (.err .invalidSecretKey) ∧
    utf8Len [] ≤ maxLabelLen := by
  decide

/-- C6 as amended: for every 32-byte private key and label,
`to_public_key` fails exactly when the label is too long **or** the scalar
is invalid for the curve (zero, or at least the curve order). -/
theorem toPublicKey_fails_iff (sk hrp : List Nat) (hlen : sk.length = 32) :
    (∃ f, toPublicKey sk hrp = .error f) ↔
      (utf8Len hrp > maxLabelLen ∨ beToNat sk = 0 ∨ nCurve ≤ beToNat sk) := by
  unfold toPublicKey secretKeyFromSlice
  simp only [hlen]
  by_cases hv : beToNat sk = 0 ∨ nCurve ≤ beToNat sk
  · simp [hv]
  · simp only [hv, if_false, if_neg (by omega : ¬ (32 : Nat) ≠ 32)]
    unfold publicKeyFromBytes arrayStringNew
    by_cases hl : utf8Len hrp > maxLabelLen
    · simp [hl]
    · simp [hl]

/-- C6 witness: the amended equivalence at the zero key and the default
label. -/
theorem toPublicKey_fails_iff_witness :
    (List.replicate 32 0).length = 32 ∧
    ((∃ f, toPublicKey (List.replicate 32 0) defaultHrp = .error f) ↔
      (utf8Len defaultHrp > maxLabelLen ∨ beToNat (List.replicate 32 0) = 0 ∨
        nCurve ≤ beToNat (List.replicate 32 0))) :=
  ⟨by decide, toPublicKey_fails_iff (List.replicate 32 0) defaultHrp (by decide)⟩

/-! ## Claim C10 -/

/-- C10: the path parser accepts any hardened segment up to `2^32 - 1` and
passes it straight to child derivation, where the hardened effective index
`2^31 + i` is computed in wrapping 32-bit arithmetic: at the well-formed
path text `m/2147483648'` the addition wraps to `0` instead of producing a
path error, while indices below `2^31` do not wrap. -/
theorem hardened_index_overflow :
    parseU32 [50, 49, 52, 55, 52, 56, 51, 54, 52, 56] = some 2147483648 ∧
    parseU32 [52, 50, 57, 52, 57, 54, 55, 50, 57, 53] = some 4294967295 ∧
    effectiveIndex 2147483648 true = 0 ∧
    2 ^ 31 + 2147483648 = 2 ^ 32 ∧
    (∀ i, i < 2 ^ 31 → effectiveIndex i true = 2 ^ 31 + i) ∧
    fromHdWalletPath [109, 47, 50, 49, 52, 55, 52, 56, 51, 54, 52, 56, 39]
        [97] [] ≠
      .error (.err (.invalidPathSpec
        [109, 47, 50, 49, 52, 55, 52, 56, 51, 54, 52, 56, 39])) := by
  refine ⟨by decide, by decide, by decide, by decide, ?_, by decide⟩
  intro i hi
  have h : effectiveIndex i true = (2 ^ 31 + i) % 2 ^ 32 := rfl
  rw [h]
  omega

/-- C10 witness: a below-`2^31` index where the effective-index addition
does not wrap. -/
theorem hardened_index_overflow_witness :
    5 < 2 ^ 31 ∧ effectiveIndex 5 true = 2 ^ 31 + 5 :=
  ⟨by decide, hardened_index_overflow.2.2.2.2.1 5 (by decide)⟩

/-! ## Claim C5 -/

/-- Concatenation splits through UTF-8 encoding. -/
theorem utf8Encode_append (a b : List Nat) :
    utf8Encode (a ++ b) = utf8Encode a ++ utf8Encode b := by
  simp [utf8Encode]

/-- Taking a prefix cannot increase the UTF-8 byte length. -/
theorem utf8Len_take_le (s : List Nat) (k : Nat) :
    utf8Len (s.take k) ≤ utf8Len s := by
  conv_rhs => rw [← List.take_append_drop k s]
  rw [utf8Len, utf8Len, utf8Encode_append]
  simp

/-- Trimming a trailing pattern cannot increase the UTF-8 byte length. -/
theorem trimEndMatchesStr_utf8Len_le (pat : List Nat) :
    ∀ fuel s, utf8Len (trimEndMatchesStr pat fuel s) ≤ utf8Len s
  | 0, _ => le_refl _
  | fuel + 1, s => by
    unfold trimEndMatchesStr
    split
    · exact le_trans (trimEndMatchesStr_utf8Len_le pat fuel _) (utf8Len_take_le s _)
    · exact le_refl _

/-- C5 counterexample: for the (valid, six-byte) label `pubpub`, removing
the single literal suffix `pub` would leave `pub`, but `to_address`
produces the empty label — `trim_end_matches` strips the suffix
repeatedly. -/
theorem toAddress_pubpub_label :
    utf8Len [112, 117, 98, 112, 117, 98] ≤ maxLabelLen ∧
    (toAddress ⟨List.replicate 33 2, [112, 117, 98, 112, 117, 98]⟩).toOption.map
        Address.label = some [] ∧
    ([] : List Nat) ≠ [112, 117, 98] := by
  refine ⟨by decide, ?_, by decide⟩
  decide

/-- C5 as amended: the address label is the public key's label with
**every** trailing repetition of the literal `pub` removed when the label
ends with `pub` (the `trim_end_matches` semantics), and the label verbatim
otherwise; in particular `cosmospub` yields `cosmos`, `validatorpub`
yields `validator`, and `abc` yields `abc`. -/
theorem toAddress_label_spec :
    (∀ pk : PublicKey, utf8Len pk.label ≤ maxLabelLen →
      (toAddress pk).toOption.map Address.label =
        some (if pubSuffix.isSuffixOf pk.label then
                trimEndMatchesStr pubSuffix pk.label.length pk.label
              else pk.label)) ∧
    (toAddress ⟨List.replicate 33 2,
        [99, 111, 115, 109, 111, 115, 112, 117, 98]⟩).toOption.map Address.label =
      some [99, 111, 115, 109, 111, 115] ∧
    (toAddress ⟨List.replicate 33 2,
        [118, 97, 108, 105, 100, 97, 116, 111, 114, 112, 117, 98]⟩).toOption.map
        Address.label = some [118, 97, 108, 105, 100, 97, 116, 111, 114] ∧
    (toAddress ⟨List.replicate 33 2, [97, 98, 99]⟩).toOption.map Address.label =
      some [97, 98, 99] := by
  refine ⟨?_, by decide, by decide, by decide⟩
  intro pk hlen
  unfold toAddress
  set newLabel :=
    if pubSuffix.isSuffixOf pk.label then
      trimEndMatchesStr pubSuffix pk.label.length pk.label
    else pk.label with hnew
  have hle : utf8Len newLabel ≤ maxLabelLen := by
    rw [hnew]
    split
    · exact le_trans (trimEndMatchesStr_utf8Len_le _ _ _) hlen
    · exact hlen
  have hok : toAddressWithPrefix pk newLabel =
      .ok ⟨(ripemd160 (sha256 pk.bytes)).take 20, newLabel⟩ := by
    unfold toAddressWithPrefix addressFromBytes arrayStringNew
    rw [if_neg (by omega)]
  show Option.map Address.label
      (match toAddressWithPrefix pk newLabel with
        | .ok a => Except.ok a
        | .error _ => Except.error Failure.panicked).toOption = some newLabel
  rw [hok]
  rfl

/-- C5 witness: the amended label rule applied to the label `pubpub`. -/
theorem toAddress_label_spec_witness :
    utf8Len [112, 117, 98, 112, 117, 98] ≤ maxLabelLen ∧
    (toAddress ⟨List.replicate 33 7, [112, 117, 98, 112, 117, 98]⟩).toOption.map
        Address.label =
      some (if pubSuffix.isSuffixOf [112, 117, 98, 112, 117, 98] then
              trimEndMatchesStr pubSuffix 6 [112, 117, 98, 112, 117, 98]
            else [112, 117, 98, 112, 117, 98]) :=
  ⟨by decide,
    toAddress_label_spec.1 ⟨List.replicate 33 7, [112, 117, 98, 112, 117, 98]⟩
      (by decide)⟩

/-! ## Claim C8 -/

/-- Every failure of the master-key step is a panic. -/
theorem masterKeyFromHash_error_panicked (hash : List Nat) (f : Failure)
    (h : masterKeyFromHash hash = .error f) : f = .panicked := by
  unfold masterKeyFromHash at h
  cases hsk : secretKeyFromSlice (hash.take 32) with
  | error f' =>
    simp only [hsk] at h
    exact (Except.error.inj h).symm
  | ok v =>
    simp only [hsk] at h
    exact Except.noConfusion h

/-- Every failure of the child-derivation step is a panic (each fallible
step in the source is `unwrap`ped). -/
theorem getChildKey_error_panicked (kParent cParent : List Nat) (i : Nat)
    (hardened : Bool) (f : Failure)
    (h : getChildKey kParent cParent i hardened = .error f) : f = .panicked := by
  unfold getChildKey at h
  cases hk : (if hardened then Except.ok (0 :: kParent)
      else match secretKeyFromSlice kParent with
           | .error _ => Except.error Failure.panicked
           | .ok sk => Except.ok (pubkeySerialize sk)) with
  | error km =>
    simp only [hk] at h
    have hkm : km = .panicked := by
      split at hk
      · exact absurd hk (by simp)
      · cases hsk : secretKeyFromSlice kParent with
        | error f' =>
          simp only [hsk] at hk
          exact (Except.error.inj hk).symm
        | ok v =>
          simp only [hsk] at hk
          exact Except.noConfusion hk
    exact (Except.error.inj h).symm.trans hkm
  | ok km =>
    simp only [hk] at h
    cases h1 : secretKeyFromSlice ((hmacSha512 cParent
        (km ++ toBytesBE4 (effectiveIndex i hardened))).take 32) with
    | error f1 =>
      simp only [h1] at h
      exact (Except.error.inj h).symm
    | ok il =>
      simp only [h1] at h
      cases h2 : scalarFromBeBytes kParent with
      | error f2 =>
        simp only [h2] at h
        exact (Except.error.inj h).symm
      | ok tw =>
        simp only [h2] at h
        cases h3 : addTweak il tw with
        | error f3 =>
          simp only [h3] at h
          exact (Except.error.inj h).symm
        | ok ck =>
          simp only [h3] at h
          cases h4 : hexStrToBytes (displaySecret ck) with
          | error f4 =>
            simp only [h4] at h
            exact (Except.error.inj h).symm
          | ok bs =>
            simp only [h4] at h
            exact Except.noConfusion h

/-- The path-text condition under which the parser rejects, as amended: a
missing leading root marker, a reverse slash, or a segment after the root
whose index — after trimming every leading and trailing apostrophe — does
not parse as a `u32`. -/
def badPathSpec (path : List Nat) : Prop :=
  path.head? ≠ some 109 ∨ path.contains 92 = true ∨
    ∃ seg ∈ (splitOn 47 path).tail, parseU32 (trimMatches 39 seg) = none

instance (path : List Nat) : Decidable (badPathSpec path) := by
  unfold badPathSpec
  infer_instance

/-- The segment fold fails with the path error exactly when some segment
fails to parse, as long as no derivation step panics. -/
theorem deriveChildren_error_iff (path : List Nat) :
    ∀ (segs : List (List Nat)) (sk cc : List Nat),
      deriveChildren path segs (sk, cc) ≠ .error .panicked →
      (deriveChildren path segs (sk, cc) = .error (.err (.invalidPathSpec path)) ↔
        ∃ seg ∈ segs, parseU32 (trimMatches 39 seg) = none)
  | [], sk, cc, _ => by simp [deriveChildren]
  | seg :: rest, sk, cc, hnp => by
    unfold deriveChildren at hnp ⊢
    cases hp : parseU32 (trimMatches 39 seg) with
    | none =>
      simp only [hp]
      constructor
      · intro _
        exact ⟨seg, by simp, hp⟩
      · intro _
        trivial
    | some n =>
      simp only [hp] at hnp ⊢
      cases hg : getChildKey sk cc n (seg.contains 39) with
      | error f =>
        simp only [hg] at hnp
        have : f = .panicked := getChildKey_error_panicked _ _ _ _ _ hg
        subst this
        exact absurd rfl hnp
      | ok sc =>
        obtain ⟨s, c⟩ := sc
        simp only [hg] at hnp ⊢
        rw [deriveChildren_error_iff path rest s c hnp]
        constructor
        · rintro ⟨sg, hin, hsg⟩
          exact ⟨sg, List.mem_cons_of_mem _ hin, hsg⟩
        · rintro ⟨sg, hin, hsg⟩
          rcases List.mem_cons.mp hin with hh | hh
          · subst hh
            rw [hsg] at hp
            cases hp
          · exact ⟨sg, hh, hsg⟩

/-- C8 as amended: provided the phrase is nonempty (so the seed-phrase
parse succeeds) and no derivation step panics, `from_hd_wallet_path` fails
with `InvalidPathSpec` carrying the path text exactly when the path is bad
in the amended sense: missing root marker, a reverse slash, or a segment
that — after trimming all leading and trailing apostrophes — does not
parse as a `u32`. -/
theorem fromHdWalletPath_invalidPath_iff (path phrase passphrase : List Nat)
    (hph : phrase ≠ [])
    (hnp : fromHdWalletPath path phrase passphrase ≠ .error .panicked) :
    fromHdWalletPath path phrase passphrase =
        .error (.err (.invalidPathSpec path)) ↔ badPathSpec path := by
  unfold badPathSpec
  unfold fromHdWalletPath at hnp ⊢
  by_cases hpre : path.head? ≠ some 109 ∨ path.contains 92 = true
  · rw [if_pos hpre]
    constructor
    · intro _
      rcases hpre with hh | hh
      · exact Or.inl hh
      · exact Or.inr (Or.inl hh)
    · intro _
      rfl
  · rw [if_neg hpre] at hnp ⊢
    have hm : mnemonicFromStr phrase = .ok phrase := by
      unfold mnemonicFromStr
      rw [if_neg hph]
    simp only [hm] at hnp ⊢
    cases hmk : masterKeyFromSeed (mnemonicToSeed phrase passphrase) with
    | error f =>
      simp only [hmk] at hnp
      have : f = .panicked :=
        masterKeyFromHash_error_panicked (hmacSha512 bitcoinSeedKey
          (mnemonicToSeed phrase passphrase)) f hmk
      subst this
      exact absurd rfl hnp
    | ok pair =>
      obtain ⟨msk, mcc⟩ := pair
      simp only [hmk] at hnp ⊢
      cases hd : deriveChildren path ((splitOn 47 path).tail) (msk, mcc) with
      | error f =>
        simp only [hd] at hnp ⊢
        have hfnp : f ≠ .panicked := fun hcon => hnp (by rw [hcon])
        have hiff := deriveChildren_error_iff path ((splitOn 47 path).tail) msk mcc
          (by rw [hd]; intro hcon; exact hfnp (Except.error.inj hcon))
        rw [hd] at hiff
        simp only [Except.error.injEq] at hiff
        simp only [Except.error.injEq]
        constructor
        · intro he
          exact Or.inr (Or.inr (hiff.mp he))
        · rintro (hb | hb | hb)
          · exact absurd (Or.inl hb) hpre
          · exact absurd (Or.inr hb) hpre
          · exact hiff.mpr hb
      | ok pair2 =>
        obtain ⟨sk, rest⟩ := pair2
        simp only [hd] at hnp ⊢
        have hiff := deriveChildren_error_iff path ((splitOn 47 path).tail) msk mcc
          (by rw [hd]; simp)
        rw [hd] at hiff
        constructor
        · intro he
          exact Except.noConfusion he
        · rintro (hb | hb | hb)
          · exact absurd (Or.inl hb) hpre
          · exact absurd (Or.inr hb) hpre
          · exact Except.noConfusion (hiff.mpr hb)

/-- C8 counterexample: the segment `5''` carries two trailing hardening
markers, so by the claim the parse must fail with the path error; the
code trims all apostrophes and the derivation succeeds. -/
theorem fromHdWalletPath_double_marker_accepted :
    (fromHdWalletPath [109, 47, 53, 39, 39] [97] []).isOk = true ∧
    ¬ badPathSpec [109, 47, 53, 39, 39] := by
  constructor
  · decide
  · decide

/-- C8 witness: the amended equivalence at a path missing the root
marker. -/
theorem fromHdWalletPath_invalidPath_iff_witness :
    badPathSpec [120] ∧
    fromHdWalletPath [120] [97] [] = .error (.err (.invalidPathSpec [120])) :=
  ⟨by decide,
    (fromHdWalletPath_invalidPath_iff [120] [97] [] (by decide) (by decide)).mpr
      (by decide)⟩

/-! ## Claim C7 -/

/-- The parser chain exactly as the claim describes it: three attempts in
order, with every later attempt tried whenever the earlier ones fail (so a
hex decode that succeeds with the wrong length also falls through to
base-64), and the base-64 error surfaced only when all three attempts
fail. -/
def publicKeyFromStrClaim (s : List Nat) : Except Failure PublicKey :=
  match fromBech32 s with
  | .ok k => .ok k
  | .error _ =>
    match (match hexStrToBytes s with
           | .ok bytes =>
             if bytes.length = 33 then publicKeyFromBytes (bytes.take 33) defaultHrp
             else .error (.err .hexWrongLength)
           | .error f => .error f) with
    | .ok k => .ok k
    | .error _ =>
      match base64Decode s with
      | .ok bytes =>
        if bytes.length = 33 then publicKeyFromBytes (bytes.take 33) defaultHrp
        else .error (.err .bytesWrongLength)
      | .error f => .error f

/-- C7 counterexample: on forty-four `a` characters the hex decode
succeeds with 22 bytes, so the code surfaces the hex length error without
ever trying base-64 — although the base-64 decode of the same string
succeeds with exactly 33 bytes, so the chain the claim describes would
return a key. -/
theorem publicKeyFromStr_hex_shortcircuits_base64 :
    publicKeyFromStr (List.replicate 44 97) = .error (.err .hexWrongLength) ∧
    (publicKeyFromStrClaim (List.replicate 44 97)).isOk = true ∧
    publicKeyFromStr (List.replicate 44 97) ≠
      publicKeyFromStrClaim (List.replicate 44 97) := by
  refine ⟨by decide, by decide, by decide⟩

/-- C7 as amended: the string parser tries the checksummed-text decode
first; on its failure it tries the hex decode, and a hex decode that
succeeds with a length other than 33 surfaces the hex length error
immediately, without attempting base-64; only when the hex decode itself
fails is the base-64 decode attempted, whose own error is surfaced when it
fails. -/
theorem publicKeyFromStr_order (s : List Nat) :
    (∀ k, fromBech32 s = .ok k → publicKeyFromStr s = .ok k) ∧
    (∀ f bytes, fromBech32 s = .error f → hexStrToBytes s = .ok bytes →
      (bytes.length = 33 →
        publicKeyFromStr s = publicKeyFromBytes (bytes.take 33) defaultHrp) ∧
      (bytes.length ≠ 33 →
        publicKeyFromStr s = .error (.err .hexWrongLength))) ∧
    (∀ f g, fromBech32 s = .error f → hexStrToBytes s = .error g →
      publicKeyFromStr s =
        (match base64Decode s with
         | .ok bytes =>
           if bytes.length = 33 then publicKeyFromBytes (bytes.take 33) defaultHrp
           else .error (.err .bytesWrongLength)
         | .error e => .error e)) := by
  refine ⟨?_, ?_, ?_⟩
  · intro k hk
    unfold publicKeyFromStr
    simp only [hk]
  · intro f bytes hb hh
    unfold publicKeyFromStr
    simp only [hb, hh]
    constructor
    · intro h33
      simp [h33]
    · intro h33
      rw [if_neg h33]
  · intro f g hb hh
    unfold publicKeyFromStr
    simp only [hb, hh]

/-- C7 witness: the hex-short-circuit branch of the ordering theorem at
the forty-four-`a` string. -/
theorem publicKeyFromStr_order_witness :
    fromBech32 (List.replicate 44 97) = .error (.err .bech32InvalidEncoding) ∧
    hexStrToBytes (List.replicate 44 97) = .ok (List.replicate 22 170) ∧
    publicKeyFromStr (List.replicate 44 97) = .error (.err .hexWrongLength) :=
  ⟨by decide, by decide,
    ((publicKeyFromStr_order (List.replicate 44 97)).2.1
        (.err .bech32InvalidEncoding) (List.replicate 22 170)
        (by decide) (by decide)).2 (by decide)⟩

/-! ## Claim C3 -/

/-- The 32-byte encoder always yields 32 bytes. -/
theorem toBytesBE32_length (v : Nat) : (toBytesBE32 v).length = 32 := by
  simp [toBytesBE32]

/-- The 32-byte encoder yields bytes. -/
theorem toBytesBE32_lt (v : Nat) : ∀ b ∈ toBytesBE32 v, b < 256 := by
  intro b hb
  simp only [toBytesBE32, List.mem_map, List.mem_range] at hb
  obtain ⟨j, _, rfl⟩ := hb
  exact Nat.mod_lt _ (by norm_num)

/-- Parsing back one byte's two hex digits. -/
theorem hexPair_roundtrip :
    ∀ b < 256, u8FromStrRadix16 [hexDigitChar (b / 16), hexDigitChar (b % 16)] =
      .ok b := by
  decide

/-- The chunked parse undoes the hex rendering. -/
theorem mapM_chunksTwo_bytesToHexStr (bs : List Nat) (h : ∀ b ∈ bs, b < 256) :
    (chunksTwo (bytesToHexStr bs)).mapM u8FromStrRadix16 = .ok bs := by
  induction bs with
  | nil => rfl
  | cons b rest ih =>
    have hb : b < 256 := h b (by simp)
    have hr : ∀ x ∈ rest, x < 256 := fun x hx => h x (by simp [hx])
    have hhd : bytesToHexStr (b :: rest) =
        hexDigitChar (b / 16) :: hexDigitChar (b % 16) :: bytesToHexStr rest := by
      simp [bytesToHexStr]
    rw [hhd]
    show ((([hexDigitChar (b / 16), hexDigitChar (b % 16)]) ::
      chunksTwo (bytesToHexStr rest)).mapM u8FromStrRadix16) = .ok (b :: rest)
    rw [List.mapM_cons, hexPair_roundtrip b hb, ih hr]
    rfl

/-- Second hex digits are never the character `x`. -/
theorem hexDigitChar_mod_ne_x : ∀ b < 256, hexDigitChar (b % 16) ≠ 120 := by
  decide

/-- Hex rendering round-trips through the hex parser. -/
theorem hexStrToBytes_bytesToHexStr (bs : List Nat) (h : ∀ b ∈ bs, b < 256) :
    hexStrToBytes (bytesToHexStr bs) = .ok bs := by
  unfold hexStrToBytes
  cases bs with
  | nil => rfl
  | cons b rest =>
    have hb : b < 256 := h b (by simp)
    have hhd : bytesToHexStr (b :: rest) =
        hexDigitChar (b / 16) :: hexDigitChar (b % 16) :: bytesToHexStr rest := by
      simp [bytesToHexStr]
    rw [hhd]
    have hpre : ¬ ((hexDigitChar (b / 16) :: hexDigitChar (b % 16) ::
        bytesToHexStr rest).take 2 = [48, 120]) := by
      simp only [List.take]
      intro hcon
      have := List.cons.inj hcon
      have := List.cons.inj this.2
      exact hexDigitChar_mod_ne_x b hb this.1
    rw [if_neg hpre, ← hhd]
    exact mapM_chunksTwo_bytesToHexStr (b :: rest) h

/-- Byte length of the word serialization. -/
theorem words64ToBytes_length (ws : List Nat) :
    (words64ToBytes ws).length = 8 * ws.length := by
  induction ws with
  | nil => rfl
  | cons w rest ih =>
    show (words64ToBytes (w :: rest)).length = 8 * (rest.length + 1)
    unfold words64ToBytes
    simp [ih]
    omega

/-- The SHA-512 compression preserves the eight-word state shape. -/
theorem sha512Compress_length (hs b : List Nat) (hlen : hs.length = 8) :
    (sha512Compress hs b).length = 8 := by
  rcases hs with _ | ⟨h0, _ | ⟨h1, _ | ⟨h2, _ | ⟨h3, _ | ⟨h4, _ | ⟨h5, _ |
    ⟨h6, _ | ⟨h7, _ | ⟨h8, t⟩⟩⟩⟩⟩⟩⟩⟩⟩ <;> simp_all [sha512Compress]

/-- All SHA-512 chaining states have eight words. -/
theorem foldl_sha512Compress_length (blocks : List (List Nat)) :
    ∀ hs, hs.length = 8 → (blocks.foldl sha512Compress hs).length = 8 := by
  induction blocks with
  | nil => intro hs h; exact h
  | cons b rest ih =>
    intro hs h
    exact ih _ (sha512Compress_length hs b h)

/-- SHA-512 digests have 64 bytes. -/
theorem sha512_length (msg : List Nat) : (sha512 msg).length = 64 := by
  unfold sha512
  rw [words64ToBytes_length, foldl_sha512Compress_length _ _ (by rfl)]

/-- HMAC-SHA512 outputs have 64 bytes. -/
theorem hmacSha512_length (key msg : List Nat) :
    (hmacSha512 key msg).length = 64 :=
  sha512_length _

/-- The hashed material of one child-derivation step, as the claim words
it: `0x00 || parent_scalar || index_be32` for a hardened step with
effective index `2^31 + i`, and the parent's compressed public point
followed by the index for a plain step. -/
def childKeyMessage (kParent : List Nat) (i : Nat) (hardened : Bool) : List Nat :=
  (if hardened then 0 :: kParent else pubkeySerialize (beToNat kParent)) ++
    toBytesBE4 (if hardened then 2 ^ 31 + i else i)

/-- C3: for a valid parent scalar, any chain code, an index below `2^31`
and either hardening flag — and under the side conditions BIP32 itself
imposes, namely that the first half of the hash is a valid scalar and the
tweaked sum is nonzero — `get_child_key` returns exactly
`(I_L + parent) mod n` (as 32 bytes) with the last 32 hash bytes as the
new chain code, where the hash is HMAC-SHA512 keyed by the parent chain
code over the material of `childKeyMessage`. -/
theorem getChildKey_spec (kParent cParent : List Nat) (i : Nat) (hardened : Bool)
    (hklen : kParent.length = 32)
    (hkpos : 0 < beToNat kParent) (hklt : beToNat kParent < nCurve)
    (hi : i < 2 ^ 31)
    (hilpos : 0 < beToNat ((hmacSha512 cParent
      (childKeyMessage kParent i hardened)).take 32))
    (hillt : beToNat ((hmacSha512 cParent
      (childKeyMessage kParent i hardened)).take 32) < nCurve)
    (hsum : (beToNat ((hmacSha512 cParent
        (childKeyMessage kParent i hardened)).take 32) + beToNat kParent) %
        nCurve ≠ 0) :
    getChildKey kParent cParent i hardened = .ok
      (toBytesBE32 ((beToNat ((hmacSha512 cParent
          (childKeyMessage kParent i hardened)).take 32) + beToNat kParent) %
          nCurve),
        (hmacSha512 cParent (childKeyMessage kParent i hardened)).drop 32) := by
  have hsk : secretKeyFromSlice kParent = .ok (beToNat kParent) := by
    unfold secretKeyFromSlice
    rw [if_neg (by omega), if_neg (by omega)]
  have hie : toBytesBE4 (effectiveIndex i hardened) =
      toBytesBE4 (if hardened then 2 ^ 31 + i else i) := by
    unfold effectiveIndex
    cases hardened
    · rfl
    · simp only [if_pos rfl]
      congr 1
      exact Nat.mod_eq_of_lt (by omega)
  have hkey : (if hardened then Except.ok (0 :: kParent)
      else match secretKeyFromSlice kParent with
           | .error _ => Except.error Failure.panicked
           | .ok sk => Except.ok (pubkeySerialize sk)) =
      .ok (if hardened then 0 :: kParent else pubkeySerialize (beToNat kParent)) := by
    cases hardened
    · simp [hsk]
    · simp
  unfold getChildKey
  rw [hkey]
  show (match secretKeyFromSlice ((hmacSha512 cParent
      ((if hardened then 0 :: kParent else pubkeySerialize (beToNat kParent)) ++
        toBytesBE4 (effectiveIndex i hardened))).take 32) with
    | .error _ => Except.error Failure.panicked
    | .ok parseIL =>
      match scalarFromBeBytes kParent with
      | .error _ => Except.error Failure.panicked
      | .ok tweak =>
        match addTweak parseIL tweak with
        | .error _ => Except.error Failure.panicked
        | .ok childKey =>
          match hexStrToBytes (displaySecret childKey) with
          | .error _ => Except.error Failure.panicked
          | .ok childKeyRes => Except.ok (childKeyRes,
              (hmacSha512 cParent
                ((if hardened then 0 :: kParent
                  else pubkeySerialize (beToNat kParent)) ++
                  toBytesBE4 (effectiveIndex i hardened))).drop 32)) = _
  rw [hie]
  have hmsg : (if hardened then 0 :: kParent
      else pubkeySerialize (beToNat kParent)) ++
      toBytesBE4 (if hardened then 2 ^ 31 + i else i) =
      childKeyMessage kParent i hardened := rfl
  rw [hmsg]
  have htlen : ((hmacSha512 cParent (childKeyMessage kParent i hardened)).take
      32).length = 32 := by
    simp [List.length_take, hmacSha512_length]
  have hil : secretKeyFromSlice ((hmacSha512 cParent
      (childKeyMessage kParent i hardened)).take 32) =
      .ok (beToNat ((hmacSha512 cParent
        (childKeyMessage kParent i hardened)).take 32)) := by
    unfold secretKeyFromSlice
    rw [if_neg (by omega), if_neg (by omega)]
  have hsc : scalarFromBeBytes kParent = .ok (beToNat kParent) := by
    unfold scalarFromBeBytes
    rw [if_neg (by omega)]
  have htw : addTweak (beToNat ((hmacSha512 cParent
      (childKeyMessage kParent i hardened)).take 32)) (beToNat kParent) =
      .ok ((beToNat ((hmacSha512 cParent
        (childKeyMessage kParent i hardened)).take 32) + beToNat kParent) %
        nCurve) := by
    unfold addTweak
    rw [if_neg hsum]
  have hhx : hexStrToBytes (displaySecret ((beToNat ((hmacSha512 cParent
      (childKeyMessage kParent i hardened)).take 32) + beToNat kParent) %
      nCurve)) = .ok (toBytesBE32 ((beToNat ((hmacSha512 cParent
      (childKeyMessage kParent i hardened)).take 32) + beToNat kParent) %
      nCurve)) := by
    unfold displaySecret
    exact hexStrToBytes_bytesToHexStr _ (toBytesBE32_lt _)
  simp only [hil, hsc, htw, hhx]

/-- C3 witness: a hardened derivation step from the parent scalar 1 and an
all-zero chain code at index 0, with every side condition checked by
evaluation. -/
theorem getChildKey_spec_witness :
    (toBytesBE32 1).length = 32 ∧
    0 < beToNat ((hmacSha512 (List.replicate 32 0)
      (childKeyMessage (toBytesBE32 1) 0 true)).take 32) ∧
    getChildKey (toBytesBE32 1) (List.replicate 32 0) 0 true = .ok
      (toBytesBE32 ((beToNat ((hmacSha512 (List.replicate 32 0)
          (childKeyMessage (toBytesBE32 1) 0 true)).take 32) +
          beToNat (toBytesBE32 1)) % nCurve),
        (hmacSha512 (List.replicate 32 0)
          (childKeyMessage (toBytesBE32 1) 0 true)).drop 32) :=
  ⟨by decide, by decide,
    getChildKey_spec (toBytesBE32 1) (List.replicate 32 0) 0 true
      (by decide) (by decide) (by decide) (by decide)
      (by decide) (by decide) (by decide)⟩

/-! ## Claim C9 -/

/-- Compact ECDSA signatures always have 64 bytes. -/
theorem signEcdsa_length (skBytes digest : List Nat) :
    (signEcdsa skBytes digest).length = 64 := by
  unfold signEcdsa
  rcases hp : ecMul (rfc6979 skBytes digest) gPoint with _ | ⟨rx, ry⟩
  · simp only [hp]
    rfl
  · simp only [hp]
    simp [toBytesBE32_length]

/-- C9: both signing entry points are thin reframings of the one internal
build: whenever the build succeeds, re-serializing the simulation form's
body yields exactly the broadcast form's body bytes, re-serializing its
auth info yields exactly the broadcast form's auth-info bytes, the
simulation entry point returns the structured parts and the broadcast
entry point the serialized raw framing of the same three buffers, and
both carry the identical one-element list of 64-byte signatures. -/
theorem buildTx_shared_parts (sk : List Nat) (messages : List ProtoAny)
    (args : MessageArgs) (memo : List Nat) (parts : TxParts)
    (h : buildTx sk messages args memo = .ok parts) :
    encodeTxBody parts.body = parts.bodyBuf ∧
    encodeAuthInfo parts.authInfo = parts.authBuf ∧
    getSignedTx sk messages args memo =
      .ok ⟨some parts.body, some parts.authInfo, parts.signatures⟩ ∧
    signStdMsg sk messages args memo =
      .ok (encodeTxRaw ⟨parts.bodyBuf, parts.authBuf, parts.signatures⟩) ∧
    parts.signatures.length = 1 ∧
    ∀ sg ∈ parts.signatures, sg.length = 64 := by
  have h3 : getSignedTx sk messages args memo =
      .ok ⟨some parts.body, some parts.authInfo, parts.signatures⟩ := by
    unfold getSignedTx
    simp only [h]
  have h4 : signStdMsg sk messages args memo =
      .ok (encodeTxRaw ⟨parts.bodyBuf, parts.authBuf, parts.signatures⟩) := by
    unfold signStdMsg
    simp only [h]
  unfold buildTx at h
  cases hpk : toPublicKey sk defaultHrp with
  | error f =>
    simp only [hpk] at h
    exact Except.noConfusion h
  | ok pk =>
    simp only [hpk] at h
    cases hsk : secretKeyFromSlice sk with
    | error f =>
      simp only [hsk] at h
      exact Except.noConfusion h
    | ok v =>
      simp only [hsk] at h
      have hp := (Except.ok.inj h).symm
      subst hp
      refine ⟨rfl, rfl, h3, h4, rfl, ?_⟩
      intro sg hsg
      rcases List.mem_singleton.mp hsg with rfl
      exact signEcdsa_length _ _

/-- The concrete parts built for the private key 1 with no messages, an
empty fee and memo, and all-zero signing parameters. -/
def demoParts : TxParts :=
  match buildTx (toBytesBE32 1) [] ⟨0, [], 0, [], 0⟩ [] with
  | .ok p => p
  | .error _ => ⟨⟨[], [], 0⟩, [], ⟨[], none⟩, [], []⟩

/-- C9 witness: the shared-build theorem applied to a fully evaluated
concrete build. -/
theorem buildTx_shared_parts_witness :
    buildTx (toBytesBE32 1) [] ⟨0, [], 0, [], 0⟩ [] = .ok demoParts ∧
    encodeTxBody demoParts.body = demoParts.bodyBuf ∧
    encodeAuthInfo demoParts.authInfo = demoParts.authBuf ∧
    getSignedTx (toBytesBE32 1) [] ⟨0, [], 0, [], 0⟩ [] =
      .ok ⟨some demoParts.body, some demoParts.authInfo, demoParts.signatures⟩ ∧
    signStdMsg (toBytesBE32 1) [] ⟨0, [], 0, [], 0⟩ [] =
      .ok (encodeTxRaw
        ⟨demoParts.bodyBuf, demoParts.authBuf, demoParts.signatures⟩) ∧
    demoParts.signatures.length = 1 :=
  have h : buildTx (toBytesBE32 1) [] ⟨0, [], 0, [], 0⟩ [] = .ok demoParts := rfl
  have hc := buildTx_shared_parts (toBytesBE32 1) [] ⟨0, [], 0, [], 0⟩ []
    demoParts h
  ⟨h, hc.1, hc.2.1, hc.2.2.1, hc.2.2.2.1, hc.2.2.2.2.1⟩

/-! ## Claim C4: arithmetic bridges between bit operations and
positional arithmetic -/

/-- Bit `i` of `a * 2^k + b` for `b < 2^k`: the low `k` bits come from
`b`, the rest from `a`. -/
theorem testBit_mul_pow_add (a b k : Nat) (hb : b < 2 ^ k) (i : Nat) :
    (a * 2 ^ k + b).testBit i =
      if i < k then b.testBit i else a.testBit (i - k) := by
  by_cases h : i < k
  · rw [if_pos h]
    have hmod : (a * 2 ^ k + b) % 2 ^ k = b := by
      rw [Nat.mul_comm, Nat.mul_add_mod]
      exact Nat.mod_eq_of_lt hb
    have hmt := Nat.testBit_mod_two_pow (a * 2 ^ k + b) k i
    rw [hmod] at hmt
    rw [hmt]
    simp [h]
  · rw [if_neg h]
    have hk : k ≤ i := Nat.le_of_not_lt h
    have hdiv : (a * 2 ^ k + b) / 2 ^ i = a / 2 ^ (i - k) := by
      have h2 : (2 : Nat) ^ i = 2 ^ k * 2 ^ (i - k) := by
        rw [← pow_add]
        congr 1
        omega
      rw [h2, ← Nat.div_div_eq_div_mul]
      congr 1
      rw [Nat.mul_comm, Nat.mul_add_div (by positivity)]
      simp [Nat.div_eq_of_lt hb]
    rw [Nat.testBit_to_div_mod, Nat.testBit_to_div_mod, hdiv]

/-- Disjoint OR is addition: `(a <<< k) ||| b = a * 2^k + b` when `b`
fits in `k` bits. -/
theorem shiftLeft_or_eq_add (a b k : Nat) (hb : b < 2 ^ k) :
    (a <<< k) ||| b = a * 2 ^ k + b := by
  apply Nat.eq_of_testBit_eq
  intro i
  rw [Nat.testBit_or, Nat.testBit_shiftLeft, testBit_mul_pow_add a b k hb i]
  by_cases h : i < k
  · have hge : ¬ (i ≥ k) := by omega
    simp [h, hge]
  · have hbf : b.testBit i = false :=
      Nat.testBit_lt_two_pow (lt_of_lt_of_le hb
        (Nat.pow_le_pow_right (by norm_num) (by omega)))
    simp [h, Nat.le_of_not_lt h, hbf]

/-- Disjoint XOR is addition: `(a <<< k) ^^^ b = a * 2^k + b` when `b`
fits in `k` bits. -/
theorem shiftLeft_xor_eq_add (a b k : Nat) (hb : b < 2 ^ k) :
    (a <<< k) ^^^ b = a * 2 ^ k + b := by
  apply Nat.eq_of_testBit_eq
  intro i
  rw [Nat.testBit_xor, Nat.testBit_shiftLeft, testBit_mul_pow_add a b k hb i]
  by_cases h : i < k
  · have hge : ¬ (i ≥ k) := by omega
    simp [h, hge]
  · have hbf : b.testBit i = false :=
      Nat.testBit_lt_two_pow (lt_of_lt_of_le hb
        (Nat.pow_le_pow_right (by norm_num) (by omega)))
    simp [h, Nat.le_of_not_lt h, hbf]

/-- The little decomposition used when a byte is shifted into a wrapping
accumulator: modulo `m * 2^k`, the accumulator keeps its low bits and the
fresh `k` bits. -/
theorem mod_mul_decomp (a b m k : Nat) (hb : b < 2 ^ k) (hm : 0 < m) :
    (a * 2 ^ k + b) % (m * 2 ^ k) = (a % m) * 2 ^ k + b := by
  conv_lhs => rw [← Nat.div_add_mod a m]
  have hrw : (m * (a / m) + a % m) * 2 ^ k + b =
      (a % m * 2 ^ k + b) + (m * 2 ^ k) * (a / m) := by ring
  rw [hrw, Nat.add_mul_mod_self_left]
  apply Nat.mod_eq_of_lt
  have h1 : a % m < m := Nat.mod_lt a hm
  have h2 : a % m * 2 ^ k + b < (a % m + 1) * 2 ^ k := by
    rw [Nat.add_mul, Nat.one_mul]
    omega
  exact lt_of_lt_of_le h2 (Nat.mul_le_mul_right _ (by omega))

/-! Value functions for the two alphabets. -/

/-- Big-endian value of a 5-bit-symbol string. -/
def val5 (vs : List Nat) : Nat := vs.foldl (fun a v => a * 32 + v) 0

/-- Folding from a nonzero accumulator shifts the value. -/
theorem foldl_val5_init (vs : List Nat) :
    ∀ init : Nat, vs.foldl (fun a v => a * 32 + v) init =
      init * 32 ^ vs.length + val5 vs := by
  induction vs with
  | nil => intro init; simp [val5]
  | cons v rest ih =>
    intro init
    show rest.foldl (fun a v => a * 32 + v) (init * 32 + v) = _
    rw [ih]
    have hv : val5 (v :: rest) = v * 32 ^ rest.length + val5 rest := by
      show rest.foldl (fun a v => a * 32 + v) (0 * 32 + v) = _
      rw [ih]
      ring_nf
    rw [hv]
    simp [List.length_cons]
    ring

/-- Value of a cons. -/
theorem val5_cons (v : Nat) (vs : List Nat) :
    val5 (v :: vs) = v * 32 ^ vs.length + val5 vs := by
  show vs.foldl (fun a v => a * 32 + v) (0 * 32 + v) = _
  rw [foldl_val5_init]
  ring_nf

/-- Value of an append. -/
theorem val5_append (xs ys : List Nat) :
    val5 (xs ++ ys) = val5 xs * 32 ^ ys.length + val5 ys := by
  rw [val5, List.foldl_append, ← val5, foldl_val5_init]

/-- The value of a 5-bit string is below `32 ^ length`. -/
theorem val5_lt : ∀ vs : List Nat, (∀ v ∈ vs, v < 32) → val5 vs < 32 ^ vs.length
  | [], _ => by simp [val5]
  | v :: rest, h => by
    simp only [List.length_cons]
    rw [val5_cons]
    have hv : v < 32 := h v (by simp)
    have hr : val5 rest < 32 ^ rest.length :=
      val5_lt rest (fun x hx => h x (by simp [hx]))
    have h2 : v * 32 ^ rest.length + val5 rest < (v + 1) * 32 ^ rest.length := by
      rw [Nat.add_mul, Nat.one_mul]
      omega
    have h3 : (v + 1) * 32 ^ rest.length ≤ 32 * 32 ^ rest.length :=
      Nat.mul_le_mul_right _ (by omega)
    have h4 : 32 * 32 ^ rest.length = 32 ^ (rest.length + 1) := by
      rw [Nat.pow_succ]
      ring
    omega

/-- Folding bytes from a nonzero accumulator shifts the value. -/
theorem foldl_beToNat_init (bs : List Nat) :
    ∀ init : Nat, bs.foldl (fun acc b => acc * 256 + b) init =
      init * 256 ^ bs.length + beToNat bs := by
  induction bs with
  | nil => intro init; simp [beToNat]
  | cons b rest ih =>
    intro init
    show rest.foldl (fun acc b => acc * 256 + b) (init * 256 + b) = _
    rw [ih]
    have hb : beToNat (b :: rest) = b * 256 ^ rest.length + beToNat rest := by
      show rest.foldl (fun acc b => acc * 256 + b) (0 * 256 + b) = _
      rw [ih]
      ring_nf
    rw [hb]
    simp [List.length_cons]
    ring

/-- Byte value of a cons. -/
theorem beToNat_cons (b : Nat) (bs : List Nat) :
    beToNat (b :: bs) = b * 256 ^ bs.length + beToNat bs := by
  show bs.foldl (fun acc b => acc * 256 + b) (0 * 256 + b) = _
  rw [foldl_beToNat_init]
  ring_nf

/-- Byte value of an append. -/
theorem beToNat_append (xs ys : List Nat) :
    beToNat (xs ++ ys) = beToNat xs * 256 ^ ys.length + beToNat ys := by
  rw [beToNat, List.foldl_append, ← beToNat, foldl_beToNat_init]

/-- The value of a byte string is below `256 ^ length`. -/
theorem beToNat_lt_pow : ∀ bs : List Nat, (∀ b ∈ bs, b < 256) →
    beToNat bs < 256 ^ bs.length
  | [], _ => by simp [beToNat]
  | b :: rest, h => by
    simp only [List.length_cons]
    rw [beToNat_cons]
    have hv : b < 256 := h b (by simp)
    have hr : beToNat rest < 256 ^ rest.length :=
      beToNat_lt_pow rest (fun x hx => h x (by simp [hx]))
    have h2 : b * 256 ^ rest.length + beToNat rest < (b + 1) * 256 ^ rest.length := by
      rw [Nat.add_mul, Nat.one_mul]
      omega
    have h3 : (b + 1) * 256 ^ rest.length ≤ 256 * 256 ^ rest.length :=
      Nat.mul_le_mul_right _ (by omega)
    have h4 : 256 * 256 ^ rest.length = 256 ^ (rest.length + 1) := by
      rw [Nat.pow_succ]
      ring
    omega

/-- Positional uniqueness: quotient and remainder against a power are
determined. -/
theorem add_mul_pow_inj (x y t1 t2 K : Nat) (h1 : t1 < K) (h2 : t2 < K)
    (he : x * K + t1 = y * K + t2) : x = y ∧ t1 = t2 := by
  have hK : 0 < K := by omega
  have hx : (x * K + t1) / K = x := by
    rw [Nat.mul_comm, Nat.mul_add_div hK]
    simp [Nat.div_eq_of_lt h1]
  have hy : (y * K + t2) / K = y := by
    rw [Nat.mul_comm, Nat.mul_add_div hK]
    simp [Nat.div_eq_of_lt h2]
  have hxy : x = y := by rw [← hx, ← hy, he]
  refine ⟨hxy, ?_⟩
  subst hxy
  omega

/-- Equal-length byte strings with the same value are equal. -/
theorem beToNat_inj : ∀ (xs ys : List Nat), xs.length = ys.length →
    (∀ b ∈ xs, b < 256) → (∀ b ∈ ys, b < 256) →
    beToNat xs = beToNat ys → xs = ys
  | [], [], _, _, _, _ => rfl
  | [], y :: ys, hlen, _, _, _ => by simp at hlen
  | x :: xs, [], hlen, _, _, _ => by simp at hlen
  | x :: xs, y :: ys, hlen, hx, hy, hv => by
    rw [beToNat_cons, beToNat_cons] at hv
    have hlen2 : xs.length = ys.length := by simpa using hlen
    rw [hlen2] at hv
    have h1 : beToNat xs < 256 ^ ys.length := by
      rw [← hlen2]
      exact beToNat_lt_pow xs (fun b hb => hx b (by simp [hb]))
    have h2 : beToNat ys < 256 ^ ys.length :=
      beToNat_lt_pow ys (fun b hb => hy b (by simp [hb]))
    obtain ⟨hxy, ht⟩ := add_mul_pow_inj x y _ _ _ h1 h2 hv
    rw [hxy, beToNat_inj xs ys hlen2 (fun b hb => hx b (by simp [hb]))
      (fun b hb => hy b (by simp [hb])) ht]

/-! The two emission loops. -/

/-- What the five-bit emission loop produces: the top `bits - bits % 5`
bits of the accumulator in five-bit chunks, leaving `bits % 5` bits. -/
theorem squashLoop_spec : ∀ (fuel acc bits : Nat), bits ≤ fuel →
    ∃ cs, squashLoop fuel acc bits = (cs, bits % 5) ∧
      cs.length = bits / 5 ∧ (∀ v ∈ cs, v < 32) ∧
      val5 cs = acc % 2 ^ bits / 2 ^ (bits % 5) := by
  intro fuel
  induction fuel with
  | zero =>
    intro acc bits hb
    have hb0 : bits = 0 := by omega
    subst hb0
    exact ⟨[], rfl, rfl, by simp, by simp [val5, Nat.mod_one]⟩
  | succ fuel ih =>
    intro acc bits hb
    unfold squashLoop
    by_cases h5 : 5 ≤ bits
    · rw [if_pos h5]
      obtain ⟨cs, hrec, hlen, hlt, hval⟩ := ih acc (bits - 5) (by omega)
      refine ⟨((acc >>> (bits - 5)) &&& 31) :: cs, ?_, ?_, ?_, ?_⟩
      · simp only [hrec]
        have : (bits - 5) % 5 = bits % 5 := by omega
        rw [this]
      · simp only [List.length_cons, hlen]
        omega
      · intro v hv
        rcases List.mem_cons.mp hv with rfl | hmem
        · have h31 : (31 : Nat) = 2 ^ 5 - 1 := by norm_num
          rw [h31, Nat.and_pow_two_sub_one_eq_mod]
          exact Nat.mod_lt _ (by norm_num)
        · exact hlt v hmem
      · rw [val5_cons, hlen, hval]
        have hc : (acc >>> (bits - 5)) &&& 31 = acc / 2 ^ (bits - 5) % 2 ^ 5 := by
          have h31 : (31 : Nat) = 2 ^ 5 - 1 := by norm_num
          rw [h31, Nat.and_pow_two_sub_one_eq_mod, Nat.shiftRight_eq_div_pow]
        have hhi : acc % 2 ^ bits / 2 ^ (bits - 5) = acc / 2 ^ (bits - 5) % 2 ^ 5 := by
          have hsp : (2 : Nat) ^ bits = 2 ^ (bits - 5) * 2 ^ 5 := by
            rw [← pow_add]
            congr 1
            omega
          rw [hsp, Nat.mod_mul_right_div_self]
        have hlo : acc % 2 ^ bits % 2 ^ (bits - 5) = acc % 2 ^ (bits - 5) :=
          Nat.mod_mod_of_dvd acc (pow_dvd_pow 2 (by omega))
        have hsplit : acc % 2 ^ bits =
            (acc / 2 ^ (bits - 5) % 2 ^ 5) * 2 ^ (bits - 5) + acc % 2 ^ (bits - 5) := by
          conv_lhs => rw [← Nat.div_add_mod (acc % 2 ^ bits) (2 ^ (bits - 5))]
          rw [hhi, hlo, Nat.mul_comm]
        rw [hc, hsplit]
        have hr5 : bits % 5 ≤ bits - 5 := by omega
        rw [Nat.add_div_of_dvd_right
          (dvd_mul_of_dvd_right (pow_dvd_pow 2 hr5) _)]
        have hdd : acc / 2 ^ (bits - 5) % 2 ^ 5 * 2 ^ (bits - 5) / 2 ^ (bits % 5) =
            acc / 2 ^ (bits - 5) % 2 ^ 5 * 2 ^ (bits - 5 - bits % 5) := by
          rw [Nat.mul_div_assoc _ (pow_dvd_pow 2 hr5), Nat.pow_div hr5 (by norm_num)]
        rw [hdd]
        have hpow : (32 : Nat) ^ ((bits - 5) / 5) = 2 ^ (bits - 5 - bits % 5) := by
          have h32 : (32 : Nat) = 2 ^ 5 := by norm_num
          rw [h32, ← pow_mul]
          congr 1
          omega
        rw [hpow]
        have : (bits - 5) % 5 = bits % 5 := by omega
        rw [this]
    · rw [if_neg h5]
      have hm : bits % 5 = bits := Nat.mod_eq_of_lt (by omega)
      have hd : bits / 5 = 0 := Nat.div_eq_of_lt (by omega)
      refine ⟨[], by rw [hm], by simp [hd], by simp, ?_⟩
      rw [hm, val5]
      have hlt : acc % 2 ^ bits < 2 ^ bits := Nat.mod_lt acc (Nat.two_pow_pos bits)
      simp [Nat.div_eq_of_lt hlt]

/-- What the byte emission loop produces: the top `bits - bits % 8` bits
of the accumulator in bytes, leaving `bits % 8` bits. -/
theorem emit8Loop_spec : ∀ (fuel acc bits : Nat), bits ≤ fuel →
    ∃ bs, emit8Loop fuel acc bits = (bs, bits % 8) ∧
      bs.length = bits / 8 ∧ (∀ v ∈ bs, v < 256) ∧
      beToNat bs = acc % 2 ^ bits / 2 ^ (bits % 8) := by
  intro fuel
  induction fuel with
  | zero =>
    intro acc bits hb
    have hb0 : bits = 0 := by omega
    subst hb0
    exact ⟨[], rfl, rfl, by simp, by simp [beToNat, Nat.mod_one]⟩
  | succ fuel ih =>
    intro acc bits hb
    unfold emit8Loop
    by_cases h8 : 8 ≤ bits
    · rw [if_pos h8]
      obtain ⟨bs, hrec, hlen, hlt, hval⟩ := ih acc (bits - 8) (by omega)
      refine ⟨((acc >>> (bits - 8)) &&& 255) :: bs, ?_, ?_, ?_, ?_⟩
      · simp only [hrec]
        have : (bits - 8) % 8 = bits % 8 := by omega
        rw [this]
      · simp only [List.length_cons, hlen]
        omega
      · intro v hv
        rcases List.mem_cons.mp hv with rfl | hmem
        · have h255 : (255 : Nat) = 2 ^ 8 - 1 := by norm_num
          rw [h255, Nat.and_pow_two_sub_one_eq_mod]
          exact Nat.mod_lt _ (by norm_num)
        · exact hlt v hmem
      · rw [beToNat_cons, hlen, hval]
        have hc : (acc >>> (bits - 8)) &&& 255 = acc / 2 ^ (bits - 8) % 2 ^ 8 := by
          have h255 : (255 : Nat) = 2 ^ 8 - 1 := by norm_num
          rw [h255, Nat.and_pow_two_sub_one_eq_mod, Nat.shiftRight_eq_div_pow]
        have hhi : acc % 2 ^ bits / 2 ^ (bits - 8) = acc / 2 ^ (bits - 8) % 2 ^ 8 := by
          have hsp : (2 : Nat) ^ bits = 2 ^ (bits - 8) * 2 ^ 8 := by
            rw [← pow_add]
            congr 1
            omega
          rw [hsp, Nat.mod_mul_right_div_self]
        have hlo : acc % 2 ^ bits % 2 ^ (bits - 8) = acc % 2 ^ (bits - 8) :=
          Nat.mod_mod_of_dvd acc (pow_dvd_pow 2 (by omega))
        have hsplit : acc % 2 ^ bits =
            (acc / 2 ^ (bits - 8) % 2 ^ 8) * 2 ^ (bits - 8) + acc % 2 ^ (bits - 8) := by
          conv_lhs => rw [← Nat.div_add_mod (acc % 2 ^ bits) (2 ^ (bits - 8))]
          rw [hhi, hlo, Nat.mul_comm]
        rw [hc, hsplit]
        have hr8 : bits % 8 ≤ bits - 8 := by omega
        rw [Nat.add_div_of_dvd_right
          (dvd_mul_of_dvd_right (pow_dvd_pow 2 hr8) _)]
        have hdd : acc / 2 ^ (bits - 8) % 2 ^ 8 * 2 ^ (bits - 8) / 2 ^ (bits % 8) =
            acc / 2 ^ (bits - 8) % 2 ^ 8 * 2 ^ (bits - 8 - bits % 8) := by
          rw [Nat.mul_div_assoc _ (pow_dvd_pow 2 hr8), Nat.pow_div hr8 (by norm_num)]
        rw [hdd]
        have hpow : (256 : Nat) ^ ((bits - 8) / 8) = 2 ^ (bits - 8 - bits % 8) := by
          have h256 : (256 : Nat) = 2 ^ 8 := by norm_num
          rw [h256, ← pow_mul]
          congr 1
          omega
        rw [hpow]
        have : (bits - 8) % 8 = bits % 8 := by omega
        rw [this]
    · rw [if_neg h8]
      have hm : bits % 8 = bits := Nat.mod_eq_of_lt (by omega)
      have hd : bits / 8 = 0 := Nat.div_eq_of_lt (by omega)
      refine ⟨[], by rw [hm], by simp [hd], by simp, ?_⟩
      rw [hm, beToNat]
      have hlt : acc % 2 ^ bits < 2 ^ bits := Nat.mod_lt acc (Nat.two_pow_pos bits)
      simp [Nat.div_eq_of_lt hlt]



/-- Full description of the 8-to-5 regrouping: every output symbol is
five bits, the length is the padded bit count over five, and the value is
the input value shifted left by the zero padding. -/
theorem toBase32Go_spec : ∀ (bs : List Nat) (acc bits : Nat), bits < 5 →
    (∀ b ∈ bs, b < 256) →
    (∀ v ∈ toBase32Go bs acc bits, v < 32) ∧
    (toBase32Go bs acc bits).length =
      (bits + 8 * bs.length + (5 - (bits + 8 * bs.length) % 5) % 5) / 5 ∧
    val5 (toBase32Go bs acc bits) =
      (acc % 2 ^ bits * 2 ^ (8 * bs.length) + beToNat bs) *
        2 ^ ((5 - (bits + 8 * bs.length) % 5) % 5)
  | [], acc, bits, hb, _ => by
    unfold toBase32Go
    by_cases h0 : 0 < bits
    · rw [if_pos h0]
      refine ⟨?_, ?_, ?_⟩
      · intro v hv
        rcases List.mem_singleton.mp hv with rfl
        have h31 : (31 : Nat) = 2 ^ 5 - 1 := by norm_num
        rw [h31, Nat.and_pow_two_sub_one_eq_mod]
        exact Nat.mod_lt _ (by norm_num)
      · simp only [List.length_singleton, List.length_nil]
        omega
      · have hc : (acc <<< (5 - bits)) &&& 31 =
            acc % 2 ^ bits * 2 ^ (5 - bits) := by
          have h31 : (31 : Nat) = 2 ^ 5 - 1 := by norm_num
          rw [h31, Nat.and_pow_two_sub_one_eq_mod, Nat.shiftLeft_eq]
          have h5 : (2 : Nat) ^ 5 = 2 ^ bits * 2 ^ (5 - bits) := by
            rw [← pow_add]
            congr 1
            omega
          rw [h5, Nat.mul_mod_mul_right]
        have hval : val5 [(acc <<< (5 - bits)) &&& 31] =
            (acc <<< (5 - bits)) &&& 31 := by
          simp [val5]
        rw [hval, hc]
        have hmod : (bits + 8 * ([] : List Nat).length) % 5 = bits := by
          simp [Nat.mod_eq_of_lt hb]
        simp only [List.length_nil, Nat.mul_zero, Nat.add_zero] at hmod ⊢
        rw [hmod]
        have hpad : (5 - bits) % 5 = 5 - bits := Nat.mod_eq_of_lt (by omega)
        rw [hpad]
        simp [beToNat]
    · rw [if_neg h0]
      have hz : bits = 0 := by omega
      subst hz
      simp [val5, beToNat, Nat.mod_one]
  | b :: rest, acc, bits, hb, hv => by
    have hbv : b < 256 := hv b (by simp)
    have hrv : ∀ x ∈ rest, x < 256 := fun x hx => hv x (by simp [hx])
    obtain ⟨cs, heq, hclen, hclt, hcval⟩ :=
      squashLoop_spec (bits + 8) (u64 ((acc <<< 8) ||| b)) (bits + 8) (le_refl _)
    have hih := toBase32Go_spec rest (u64 ((acc <<< 8) ||| b)) ((bits + 8) % 5)
      (Nat.mod_lt _ (by norm_num)) hrv
    obtain ⟨hilt, hilen, hival⟩ := hih
    have hgo : toBase32Go (b :: rest) acc bits =
        cs ++ toBase32Go rest (u64 ((acc <<< 8) ||| b)) ((bits + 8) % 5) := by
      conv_lhs => unfold toBase32Go
      simp only [heq]
    rw [hgo]
    have hacc2 : u64 ((acc <<< 8) ||| b) % 2 ^ (bits + 8) =
        acc % 2 ^ bits * 2 ^ 8 + b := by
      have h1 : (acc <<< 8) ||| b = acc * 2 ^ 8 + b :=
        shiftLeft_or_eq_add acc b 8 (by omega)
      have h2 : u64 ((acc <<< 8) ||| b) % 2 ^ (bits + 8) =
          ((acc <<< 8) ||| b) % 2 ^ (bits + 8) := by
        unfold u64
        exact Nat.mod_mod_of_dvd _ (pow_dvd_pow 2 (by omega))
      rw [h2, h1]
      have h3 : (2 : Nat) ^ (bits + 8) = 2 ^ bits * 2 ^ 8 := by
        rw [← pow_add]
      rw [h3]
      exact mod_mul_decomp acc b (2 ^ bits) 8 (by omega) (Nat.two_pow_pos bits)
    refine ⟨?_, ?_, ?_⟩
    · intro x hx
      rcases List.mem_append.mp hx with hmem | hmem
      · exact hclt x hmem
      · exact hilt x hmem
    · rw [List.length_append, hclen, hilen]
      simp only [List.length_cons]
      omega
    · rw [val5_append, hcval, hival, hilen]
      rw [beToNat_cons]
      have h256 : (256 : Nat) ^ rest.length = 2 ^ (8 * rest.length) := by
        rw [show (256 : Nat) = 2 ^ 8 from by norm_num, ← pow_mul]
      set A := u64 ((acc <<< 8) ||| b) % 2 ^ (bits + 8) with hAdef
      set b2 := (bits + 8) % 5 with hb2
      set R := rest.length with hR
      set pad := (5 - (b2 + 8 * R) % 5) % 5 with hpad
      have hlo : u64 ((acc <<< 8) ||| b) % 2 ^ b2 = A % 2 ^ b2 := by
        rw [hAdef]
        exact (Nat.mod_mod_of_dvd _ (pow_dvd_pow 2 (by omega))).symm
      have hsplitA : A = A / 2 ^ b2 * 2 ^ b2 + A % 2 ^ b2 := by
        have h := (Nat.div_add_mod A (2 ^ b2)).symm
        rw [Nat.mul_comm (2 ^ b2) (A / 2 ^ b2)] at h
        exact h
      have hpow32 : (32 : Nat) ^ ((b2 + 8 * R + pad) / 5) =
          2 ^ (b2 + 8 * R + pad) := by
        rw [show (32 : Nat) = 2 ^ 5 from by norm_num, ← pow_mul]
        congr 1
        omega
      have hpad2 : (5 - (bits + 8 * (R + 1)) % 5) % 5 = pad := by
        rw [hpad, hb2]
        omega
      simp only [List.length_cons, ← hR]
      rw [hpow32, hpad2, hlo, h256]
      have hexp : (2 : Nat) ^ (b2 + 8 * R + pad) =
          2 ^ b2 * 2 ^ (8 * R) * 2 ^ pad := by
        rw [← pow_add, ← pow_add]
      have hexp2 : (2 : Nat) ^ (8 * (R + 1)) = 2 ^ (8 * R) * 2 ^ 8 := by
        rw [show 8 * (R + 1) = 8 * R + 8 from by ring, pow_add]
      rw [hexp, hexp2]
      have hfin : A / 2 ^ b2 * 2 ^ b2 * 2 ^ (8 * R) + A % 2 ^ b2 * 2 ^ (8 * R) =
          A * 2 ^ (8 * R) := by
        conv_rhs => rw [hsplitA]
        ring
      calc A / 2 ^ b2 * (2 ^ b2 * 2 ^ (8 * R) * 2 ^ pad) +
            (A % 2 ^ b2 * 2 ^ (8 * R) + beToNat rest) * 2 ^ pad
          = (A / 2 ^ b2 * 2 ^ b2 * 2 ^ (8 * R) +
              A % 2 ^ b2 * 2 ^ (8 * R) + beToNat rest) * 2 ^ pad := by ring
        _ = (A * 2 ^ (8 * R) + beToNat rest) * 2 ^ pad := by rw [hfin]
        _ = (acc % 2 ^ bits * (2 ^ (8 * R) * 2 ^ 8) +
              (b * 2 ^ (8 * R) + beToNat rest)) * 2 ^ pad := by
            rw [hacc2]
            ring



/-- Success description of the 5-to-8 regrouping with no padding allowed:
when the leftover bit count is below five and the leftover bits are zero,
the conversion succeeds and returns exactly the carried value. -/
theorem fromBase32Go_spec : ∀ (vs : List Nat) (acc bits : Nat), bits < 8 →
    (∀ v ∈ vs, v < 32) →
    (bits + 5 * vs.length) % 8 < 5 →
    (acc % 2 ^ bits * 2 ^ (5 * vs.length) + val5 vs) %
      2 ^ ((bits + 5 * vs.length) % 8) = 0 →
    ∃ out, fromBase32Go vs acc bits = some out ∧
      out.length = (bits + 5 * vs.length) / 8 ∧
      (∀ b ∈ out, b < 256) ∧
      beToNat out = (acc % 2 ^ bits * 2 ^ (5 * vs.length) + val5 vs) /
        2 ^ ((bits + 5 * vs.length) % 8)
  | [], acc, bits, hb, _, hr, hz => by
    simp only [List.length_nil, Nat.mul_zero, Nat.add_zero] at hr hz ⊢
    have hbm : bits % 8 = bits := Nat.mod_eq_of_lt hb
    rw [hbm] at hr hz ⊢
    have hzz : acc % 2 ^ bits = 0 := by
      have h1 : acc % 2 ^ bits < 2 ^ bits := Nat.mod_lt acc (Nat.two_pow_pos bits)
      have h2 : (acc % 2 ^ bits * 2 ^ 0 + val5 []) = acc % 2 ^ bits := by
        simp [val5]
      rw [h2] at hz
      rw [← Nat.mod_eq_of_lt h1]
      exact hz
    refine ⟨[], ?_, by simp [Nat.div_eq_of_lt hb], by simp, ?_⟩
    · unfold fromBase32Go
      rw [if_neg (by omega)]
      have hsh : (acc <<< (8 - bits)) &&& 255 = 0 := by
        have h255 : (255 : Nat) = 2 ^ 8 - 1 := by norm_num
        rw [h255, Nat.and_pow_two_sub_one_eq_mod, Nat.shiftLeft_eq]
        have h8 : (2 : Nat) ^ 8 = 2 ^ bits * 2 ^ (8 - bits) := by
          rw [← pow_add]
          congr 1
          omega
        rw [h8, Nat.mul_mod_mul_right, hzz, Nat.zero_mul]
      rw [if_neg (by simp [hsh])]
    · simp [beToNat, val5, hzz]
  | v :: rest, acc, bits, hb, hv, hr, hz => by
    have hv32 : v < 32 := hv v (by simp)
    have hrv : ∀ x ∈ rest, x < 32 := fun x hx => hv x (by simp [hx])
    have hv5 : ¬ (v >>> 5 ≠ 0) := by
      rw [Nat.shiftRight_eq_div_pow]
      simp [Nat.div_eq_of_lt hv32]
    obtain ⟨bs, heq, hblen, hblt, hbval⟩ :=
      emit8Loop_spec (bits + 5) (u32 ((acc <<< 5) ||| v)) (bits + 5) (le_refl _)
    set acc2 := u32 ((acc <<< 5) ||| v) with hacc2def
    set b2 := (bits + 5) % 8 with hb2
    set R := rest.length with hR
    set r := (b2 + 5 * R) % 8 with hrdef
    have hacc2 : acc2 % 2 ^ (bits + 5) = acc % 2 ^ bits * 2 ^ 5 + v := by
      have h1 : (acc <<< 5) ||| v = acc * 2 ^ 5 + v :=
        shiftLeft_or_eq_add acc v 5 (by omega)
      have h2 : acc2 % 2 ^ (bits + 5) = ((acc <<< 5) ||| v) % 2 ^ (bits + 5) := by
        rw [hacc2def]
        unfold u32
        exact Nat.mod_mod_of_dvd _ (pow_dvd_pow 2 (by omega))
      rw [h2, h1]
      have h3 : (2 : Nat) ^ (bits + 5) = 2 ^ bits * 2 ^ 5 := by
        rw [← pow_add]
      rw [h3]
      exact mod_mul_decomp acc v (2 ^ bits) 5 (by omega) (Nat.two_pow_pos bits)
    have hlo : acc2 % 2 ^ b2 = acc2 % 2 ^ (bits + 5) % 2 ^ b2 :=
      (Nat.mod_mod_of_dvd _ (pow_dvd_pow 2 (by omega))).symm
    have hsplitA : acc2 % 2 ^ (bits + 5) =
        acc2 % 2 ^ (bits + 5) / 2 ^ b2 * 2 ^ b2 + acc2 % 2 ^ (bits + 5) % 2 ^ b2 := by
      have h := (Nat.div_add_mod (acc2 % 2 ^ (bits + 5)) (2 ^ b2)).symm
      rw [Nat.mul_comm (2 ^ b2)] at h
      exact h
    have hVsplit : acc % 2 ^ bits * 2 ^ (5 * (R + 1)) + val5 (v :: rest) =
        acc2 % 2 ^ (bits + 5) / 2 ^ b2 * 2 ^ (b2 + 5 * R) +
          (acc2 % 2 ^ b2 * 2 ^ (5 * R) + val5 rest) := by
      rw [val5_cons, ← hR]
      have hp1 : (2 : Nat) ^ (5 * (R + 1)) = 2 ^ 5 * 2 ^ (5 * R) := by
        rw [← pow_add]
        congr 1
        ring
      have hp2 : (32 : Nat) ^ R = 2 ^ (5 * R) := by
        rw [show (32 : Nat) = 2 ^ 5 from by norm_num, ← pow_mul]
      have hp3 : (2 : Nat) ^ (b2 + 5 * R) = 2 ^ b2 * 2 ^ (5 * R) := by
        rw [← pow_add]
      rw [hp1, hp2, hp3, hlo]
      calc acc % 2 ^ bits * (2 ^ 5 * 2 ^ (5 * R)) + (v * 2 ^ (5 * R) + val5 rest)
          = (acc % 2 ^ bits * 2 ^ 5 + v) * 2 ^ (5 * R) + val5 rest := by ring
        _ = acc2 % 2 ^ (bits + 5) * 2 ^ (5 * R) + val5 rest := by rw [hacc2]
        _ = (acc2 % 2 ^ (bits + 5) / 2 ^ b2 * 2 ^ b2 +
              acc2 % 2 ^ (bits + 5) % 2 ^ b2) * 2 ^ (5 * R) + val5 rest := by
            rw [← hsplitA]
        _ = acc2 % 2 ^ (bits + 5) / 2 ^ b2 * (2 ^ b2 * 2 ^ (5 * R)) +
              (acc2 % 2 ^ (bits + 5) % 2 ^ b2 * 2 ^ (5 * R) + val5 rest) := by
            ring
    have hreq : r = (bits + 5 * (v :: rest).length) % 8 := by
      simp only [List.length_cons, ← hR, hrdef, hb2]
      omega
    have hrle : r ≤ b2 + 5 * R := by
      rw [hrdef]
      omega
    have hdvd : (2 : Nat) ^ r ∣ acc2 % 2 ^ (bits + 5) / 2 ^ b2 * 2 ^ (b2 + 5 * R) :=
      dvd_mul_of_dvd_right (pow_dvd_pow 2 hrle) _
    have hz2 : (acc2 % 2 ^ b2 * 2 ^ (5 * R) + val5 rest) % 2 ^ r = 0 := by
      have hzz := hz
      rw [← hreq] at hzz
      simp only [List.length_cons, ← hR] at hzz
      rw [hVsplit] at hzz
      obtain ⟨m, hm⟩ := hdvd
      rw [hm, Nat.mul_add_mod] at hzz
      exact hzz
    obtain ⟨out2, hrec, hl2, hbd2, hval2⟩ := fromBase32Go_spec rest acc2 b2
      (Nat.mod_lt _ (by norm_num)) hrv
      (by
        have h := hr
        simp only [List.length_cons] at h
        rw [hb2]
        omega)
      (by exact hz2)
    have hgo : fromBase32Go (v :: rest) acc bits =
        (match fromBase32Go rest acc2 b2 with
         | some out => some (bs ++ out)
         | none => none) := by
      conv_lhs => unfold fromBase32Go
      rw [if_neg hv5]
      simp only [← hacc2def, heq, ← hb2]
    rw [hgo, hrec]
    refine ⟨bs ++ out2, rfl, ?_, ?_, ?_⟩
    · rw [List.length_append, hblen, hl2]
      simp only [List.length_cons, ← hR, hb2]
      omega
    · intro x hx
      rcases List.mem_append.mp hx with hmem | hmem
      · exact hblt x hmem
      · exact hbd2 x hmem
    · rw [beToNat_append, hbval, hval2, hl2]
      rw [← hreq]
      simp only [List.length_cons, ← hR]
      rw [hVsplit]
      rw [Nat.add_div_of_dvd_right hdvd]
      have hfst : acc2 % 2 ^ (bits + 5) / 2 ^ b2 * 2 ^ (b2 + 5 * R) / 2 ^ r =
          acc2 % 2 ^ (bits + 5) / 2 ^ b2 * 2 ^ (b2 + 5 * R - r) := by
        rw [Nat.mul_div_assoc _ (pow_dvd_pow 2 hrle), Nat.pow_div hrle (by norm_num)]
      rw [hfst]
      have hrr : (b2 + 5 * R) % 8 = r := by rw [hrdef]
      rw [hrr]
      have h2561 : (256 : Nat) ^ ((b2 + 5 * R) / 8) = 2 ^ (b2 + 5 * R - r) := by
        rw [show (256 : Nat) = 2 ^ 8 from by norm_num, ← pow_mul]
        congr 1
        rw [hrdef]
        omega
      rw [h2561]



/-- The 8-to-5 regrouping round-trips: decoding an encoding recovers the
original bytes. -/
theorem fromBase32_toBase32 (bs : List Nat) (h : ∀ b ∈ bs, b < 256) :
    fromBase32 (toBase32 bs) = some bs := by
  obtain ⟨hlt, hlen, hval⟩ := toBase32Go_spec bs 0 0 (by norm_num) h
  simp only [Nat.zero_add, Nat.mod_one, Nat.zero_mul, Nat.mul_zero] at hlen hval
  have hval2 : val5 (toBase32Go bs 0 0) =
      beToNat bs * 2 ^ ((5 - 8 * bs.length % 5) % 5) := by
    rw [hval]
    simp [Nat.mod_one]
  have hpad5 : (5 - 8 * bs.length % 5) % 5 < 5 := Nat.mod_lt _ (by norm_num)
  have hpad8 : (5 - 8 * bs.length % 5) % 5 < 8 :=
    Nat.lt_trans hpad5 (by norm_num)
  have h5L : 5 * (toBase32Go bs 0 0).length =
      8 * bs.length + (5 - 8 * bs.length % 5) % 5 := by
    rw [hlen]
    omega
  have hmod : (0 + 5 * (toBase32Go bs 0 0).length) % 8 =
      (5 - 8 * bs.length % 5) % 5 := by
    rw [Nat.zero_add, h5L, Nat.mul_add_mod, Nat.mod_eq_of_lt hpad8]
  obtain ⟨out, hsome, holen, hob, hov⟩ :=
    fromBase32Go_spec (toBase32Go bs 0 0) 0 0 (by norm_num) hlt
      (by rw [hmod]; exact hpad5)
      (by
        rw [hval2, hmod]
        simp [Nat.mod_one, Nat.mul_mod_left])
  have houtlen : out.length = bs.length := by
    rw [holen, Nat.zero_add, h5L, Nat.mul_add_div (by norm_num : 0 < 8),
      Nat.div_eq_of_lt hpad8, Nat.add_zero]
  have houtval : beToNat out = beToNat bs := by
    rw [hov, hmod, hval2]
    simp only [Nat.pow_zero, Nat.mod_one, Nat.zero_mul, Nat.zero_add]
    exact Nat.mul_div_cancel _ (Nat.two_pow_pos _)
  have hout : out = bs := beToNat_inj out bs houtlen hob h houtval
  subst hout
  exact hsome



/-! ### The bech32 checksum identity -/

/-- The linear part of `polymodStep`: one step of the checksum fold with a
zero input value. -/
def polymodL (chk : Nat) : Nat :=
  let b := chk >>> 25
  let c0 := (chk &&& 0x1ffffff) <<< 5
  let c1 := if b.testBit 0 then c0 ^^^ 0x3b6a57b2 else c0
  let c2 := if b.testBit 1 then c1 ^^^ 0x26508e6d else c1
  let c3 := if b.testBit 2 then c2 ^^^ 0x1ea119fa else c2
  let c4 := if b.testBit 3 then c3 ^^^ 0x3d4233dd else c3
  if b.testBit 4 then c4 ^^^ 0x2a1462b3 else c4

theorem xor_left_comm (a b c : Nat) : a ^^^ (b ^^^ c) = b ^^^ (a ^^^ c) := by
  rw [← Nat.xor_assoc, Nat.xor_comm a b, Nat.xor_assoc]

/-- A checksum step is its linear part xored with the input value. -/
theorem polymodStep_eq (chk v : Nat) : polymodStep chk v = polymodL chk ^^^ v := by
  unfold polymodStep polymodL
  by_cases h0 : (chk >>> 25).testBit 0 <;>
  by_cases h1 : (chk >>> 25).testBit 1 <;>
  by_cases h2 : (chk >>> 25).testBit 2 <;>
  by_cases h3 : (chk >>> 25).testBit 3 <;>
  by_cases h4 : (chk >>> 25).testBit 4 <;>
  simp [h0, h1, h2, h3, h4, Nat.xor_assoc, Nat.xor_comm, xor_left_comm]

/-- A conditional generator contribution. -/
def genB (b : Bool) (g : Nat) : Nat := if b then g else 0

/-- Closed xor form of the linear checksum step. -/
theorem polymodL_eq (chk : Nat) : polymodL chk =
    ((chk &&& 0x1ffffff) <<< 5) ^^^
      (genB ((chk >>> 25).testBit 0) 0x3b6a57b2 ^^^
       (genB ((chk >>> 25).testBit 1) 0x26508e6d ^^^
        (genB ((chk >>> 25).testBit 2) 0x1ea119fa ^^^
         (genB ((chk >>> 25).testBit 3) 0x3d4233dd ^^^
          genB ((chk >>> 25).testBit 4) 0x2a1462b3)))) := by
  unfold polymodL genB
  by_cases h0 : (chk >>> 25).testBit 0 <;>
  by_cases h1 : (chk >>> 25).testBit 1 <;>
  by_cases h2 : (chk >>> 25).testBit 2 <;>
  by_cases h3 : (chk >>> 25).testBit 3 <;>
  by_cases h4 : (chk >>> 25).testBit 4 <;>
  simp [h0, h1, h2, h3, h4, Nat.xor_assoc, Nat.xor_comm, xor_left_comm]

theorem genB_bxor (a b : Bool) (g : Nat) :
    genB (a ^^ b) g = genB a g ^^^ genB b g := by
  cases a <;> cases b <;> simp [genB, Nat.xor_self]

theorem shiftLeft_xor_distrib (a b n : Nat) :
    (a ^^^ b) <<< n = (a <<< n) ^^^ (b <<< n) := by
  apply Nat.eq_of_testBit_eq
  intro i
  simp [Nat.testBit_shiftLeft, Nat.testBit_xor, Bool.and_xor_distrib_left]

/-- The linear checksum step distributes over xor. -/
theorem polymodL_xor (x y : Nat) :
    polymodL (x ^^^ y) = polymodL x ^^^ polymodL y := by
  rw [polymodL_eq (x ^^^ y), polymodL_eq x, polymodL_eq y,
    Nat.and_xor_distrib_right, shiftLeft_xor_distrib]
  have hb : ∀ i, ((x ^^^ y) >>> 25).testBit i =
      (((x >>> 25).testBit i) ^^ ((y >>> 25).testBit i)) := by
    intro i
    simp [Nat.testBit_shiftRight, Nat.testBit_xor]
  rw [hb 0, hb 1, hb 2, hb 3, hb 4,
    genB_bxor, genB_bxor, genB_bxor, genB_bxor, genB_bxor]
  simp [Nat.xor_assoc, Nat.xor_comm, xor_left_comm]

/-- The linear checksum step stays below thirty bits. -/
theorem polymodL_lt (x : Nat) : polymodL x < 2 ^ 30 := by
  have hg : ∀ (b : Bool) (g : Nat), g < 2 ^ 30 → genB b g < 2 ^ 30 := by
    intro b g hgg
    cases b
    · simp only [genB, if_neg Bool.false_ne_true]
      positivity
    · simpa [genB] using hgg
  rw [polymodL_eq]
  have h1 : (x &&& 0x1ffffff) <<< 5 < 2 ^ 30 := by
    rw [Nat.shiftLeft_eq]
    have h2 : x &&& 0x1ffffff ≤ 0x1ffffff := Nat.and_le_right
    omega
  exact Nat.xor_lt_two_pow h1 (Nat.xor_lt_two_pow (hg _ _ (by norm_num))
    (Nat.xor_lt_two_pow (hg _ _ (by norm_num))
      (Nat.xor_lt_two_pow (hg _ _ (by norm_num))
        (Nat.xor_lt_two_pow (hg _ _ (by norm_num)) (hg _ _ (by norm_num))))))

/-- On a value below twenty-five bits the linear step is a pure shift. -/
theorem polymodL_small (x : Nat) (h : x < 2 ^ 25) : polymodL x = x * 32 := by
  have h25 : x >>> 25 = 0 := by
    rw [Nat.shiftRight_eq_div_pow]
    exact Nat.div_eq_of_lt h
  have hand : x &&& 0x1ffffff = x := by
    have h31 : (0x1ffffff : Nat) = 2 ^ 25 - 1 := by norm_num
    rw [h31, Nat.and_pow_two_sub_one_eq_mod]
    exact Nat.mod_eq_of_lt h
  simp [polymodL, h25, hand, Nat.shiftLeft_eq]

theorem polymodL_it2 (x : Nat) (h : x < 32) :
    polymodL (polymodL x) = x * 2 ^ 10 := by
  rw [polymodL_small x (by omega), polymodL_small (x * 32) (by omega)]
  ring

theorem polymodL_it3 (x : Nat) (h : x < 32) :
    polymodL (polymodL (polymodL x)) = x * 2 ^ 15 := by
  rw [polymodL_small x (by omega), polymodL_small (x * 32) (by omega),
    polymodL_small (x * 32 * 32) (by omega)]
  ring

theorem polymodL_it4 (x : Nat) (h : x < 32) :
    polymodL (polymodL (polymodL (polymodL x))) = x * 2 ^ 20 := by
  rw [polymodL_small x (by omega), polymodL_small (x * 32) (by omega),
    polymodL_small (x * 32 * 32) (by omega),
    polymodL_small (x * 32 * 32 * 32) (by omega)]
  ring

theorem polymodL_it5 (x : Nat) (h : x < 32) :
    polymodL (polymodL (polymodL (polymodL (polymodL x)))) = x * 2 ^ 25 := by
  rw [polymodL_small x (by omega), polymodL_small (x * 32) (by omega),
    polymodL_small (x * 32 * 32) (by omega),
    polymodL_small (x * 32 * 32 * 32) (by omega),
    polymodL_small (x * 32 * 32 * 32 * 32) (by omega)]
  ring

theorem polymodL_it1 (x : Nat) (h : x < 32) : polymodL x = x * 2 ^ 5 := by
  rw [polymodL_small x (by omega)]
  norm_num

theorem mul_pow_xor_eq_add (a b k : Nat) (hb : b < 2 ^ k) :
    (a * 2 ^ k) ^^^ b = a * 2 ^ k + b := by
  have h2 := shiftLeft_xor_eq_add a b k hb
  rw [Nat.shiftLeft_eq] at h2
  exact h2

/-- A thirty-bit value is the xor of its six five-bit chunks shifted into
place. -/
theorem pm_chunks (pm : Nat) (h : pm < 2 ^ 30) :
    ((pm >>> 25) &&& 31) * 2 ^ 25 ^^^
      (((pm >>> 20) &&& 31) * 2 ^ 20 ^^^
       (((pm >>> 15) &&& 31) * 2 ^ 15 ^^^
        (((pm >>> 10) &&& 31) * 2 ^ 10 ^^^
         (((pm >>> 5) &&& 31) * 2 ^ 5 ^^^ (pm &&& 31))))) = pm := by
  have h31 : (31 : Nat) = 2 ^ 5 - 1 := by norm_num
  simp only [h31, Nat.and_pow_two_sub_one_eq_mod, Nat.shiftRight_eq_div_pow]
  rw [mul_pow_xor_eq_add _ _ 5 (by omega)]
  rw [mul_pow_xor_eq_add _ _ 10 (by omega)]
  rw [mul_pow_xor_eq_add _ _ 15 (by omega)]
  rw [mul_pow_xor_eq_add _ _ 20 (by omega)]
  rw [mul_pow_xor_eq_add _ _ 25 (by omega)]
  omega

/-- A six-value checksum fold in terms of the linear step. -/
theorem polymod_six (s v0 v1 v2 v3 v4 v5 : Nat) :
    polymod s [v0, v1, v2, v3, v4, v5] =
      polymodL (polymodL (polymodL (polymodL (polymodL (polymodL s))))) ^^^
        (polymodL (polymodL (polymodL (polymodL (polymodL v0)))) ^^^
         (polymodL (polymodL (polymodL (polymodL v1))) ^^^
          (polymodL (polymodL (polymodL v2)) ^^^
           (polymodL (polymodL v3) ^^^ (polymodL v4 ^^^ v5))))) := by
  simp [polymod, List.foldl, polymodStep_eq, polymodL_xor, Nat.xor_assoc]

/-- The checksum appended by `create_checksum` makes the full checksum fold
come out at the `Bech32` constant 1. -/
theorem polymod_checksum (hrp data : List Nat) :
    polymod 1 (hrpExpand hrp ++ data ++ createChecksum hrp data) = 1 := by
  have hL6lt : ∀ s : Nat,
      polymodL (polymodL (polymodL (polymodL (polymodL (polymodL s))))) <
        2 ^ 30 := fun s => polymodL_lt _
  have h0 : polymodL 0 = 0 := by
    rw [polymodL_small 0 (by norm_num)]
  have hcs : createChecksum hrp data =
      (List.range 6).map (fun i =>
        ((polymod 1 (hrpExpand hrp ++ data ++ [0, 0, 0, 0, 0, 0]) ^^^ 1) >>>
          (5 * (5 - i))) &&& 31) := rfl
  have hpm0 : polymod 1 (hrpExpand hrp ++ data ++ [0, 0, 0, 0, 0, 0]) =
      polymodL (polymodL (polymodL (polymodL (polymodL (polymodL
        (polymod 1 (hrpExpand hrp ++ data))))))) := by
    rw [show hrpExpand hrp ++ data ++ [0, 0, 0, 0, 0, 0] =
      (hrpExpand hrp ++ data) ++ [0, 0, 0, 0, 0, 0] from rfl]
    rw [polymod, List.foldl_append, ← polymod, ← polymod, polymod_six]
    simp [h0]
  rw [show hrpExpand hrp ++ data ++ createChecksum hrp data =
    (hrpExpand hrp ++ data) ++ createChecksum hrp data from rfl]
  rw [polymod, List.foldl_append, ← polymod, ← polymod]
  rw [hcs, hpm0]
  simp only [List.range_succ, List.range_zero, List.map_append, List.map_cons,
    List.map_nil, List.nil_append, List.cons_append, List.append_nil]
  norm_num
  rw [polymod_six]
  set A := polymodL (polymodL (polymodL (polymodL (polymodL (polymodL
    (polymod 1 (hrpExpand hrp ++ data))))))) with hA
  have hAlt : A < 2 ^ 30 := polymodL_lt _
  have hpmlt : A ^^^ 1 < 2 ^ 30 := Nat.xor_lt_two_pow hAlt (by norm_num)
  have hc : ∀ k : Nat, ((A ^^^ 1) >>> k) &&& 31 < 32 :=
    fun k => lt_of_le_of_lt Nat.and_le_right (by norm_num)
  rw [polymodL_it5 _ (hc 25), polymodL_it4 _ (hc 20), polymodL_it3 _ (hc 15),
    polymodL_it2 _ (hc 10), polymodL_it1 _ (hc 5)]
  rw [pm_chunks (A ^^^ 1) hpmlt]
  rw [← Nat.xor_assoc, Nat.xor_self, Nat.zero_xor]


/-! ### Decoding an encoding -/

/-- Every bech32 data character avoids the separator, is not upper-case,
is mapped back to its value by the reverse lookup, and lies in the
visible ASCII range. -/
theorem bech32Charset_props : ∀ v < 32,
    bech32Charset.getD v 0 ≠ 49 ∧
    isUpperChar (bech32Charset.getD v 0) = false ∧
    bech32CharsetRev (bech32Charset.getD v 0) = some v ∧
    33 ≤ bech32Charset.getD v 0 ∧ bech32Charset.getD v 0 ≤ 126 := by
  decide

theorem lastIndexOf_not_mem (c : Nat) :
    ∀ (l : List Nat), c ∉ l → lastIndexOf c l = none
  | [], _ => rfl
  | x :: rest, h => by
    have hr : c ∉ rest := fun hm => h (List.mem_cons_of_mem x hm)
    have hx : x ≠ c := fun he => h (he ▸ List.mem_cons_self x rest)
    unfold lastIndexOf
    rw [lastIndexOf_not_mem c rest hr, if_neg hx]

/-- `rfind` locates the last separator when the tail holds none. -/
theorem lastIndexOf_append (pre post : List Nat) (h : 49 ∉ post) :
    lastIndexOf 49 (pre ++ 49 :: post) = some pre.length := by
  induction pre with
  | nil =>
    simp only [List.nil_append, List.length_nil]
    unfold lastIndexOf
    rw [lastIndexOf_not_mem 49 post h, if_pos rfl]
  | cons x xs ih =>
    simp only [List.cons_append, List.length_cons]
    unfold lastIndexOf
    rw [ih]

theorem mapM_map_inv (f : Nat → Nat) (g : Nat → Option Nat) :
    ∀ (l : List Nat), (∀ x ∈ l, g (f x) = some x) → (l.map f).mapM g = some l
  | [], _ => rfl
  | a :: l, h => by
    rw [List.map_cons, List.mapM_cons, h a (List.mem_cons_self a l),
      mapM_map_inv f g l (fun x hx => h x (List.mem_cons_of_mem a hx))]
    rfl

theorem lowerChar_id (c : Nat) (h : isUpperChar c = false) : lowerChar c = c := by
  unfold lowerChar
  rw [if_neg]
  intro hc
  simp [isUpperChar, hc.1, hc.2] at h

theorem map_lowerChar_id : ∀ (l : List Nat),
    (∀ c ∈ l, isUpperChar c = false) → l.map lowerChar = l
  | [], _ => rfl
  | c :: l, h => by
    rw [List.map_cons, lowerChar_id c (h c (List.mem_cons_self c l)),
      map_lowerChar_id l (fun x hx => h x (List.mem_cons_of_mem c hx))]

/-- On ASCII strings the UTF-8 byte length is the character count. -/
theorem utf8Len_ascii : ∀ (l : List Nat), (∀ c ∈ l, c < 128) →
    utf8Len l = l.length
  | [], _ => rfl
  | c :: l, h => by
    have hc : c < 128 := h c (List.mem_cons_self c l)
    have hrest := utf8Len_ascii l (fun x hx => h x (List.mem_cons_of_mem c hx))
    unfold utf8Len utf8Encode at hrest ⊢
    rw [List.map_cons, List.flatten_cons, List.length_append, List.length_cons]
    have h1 : (utf8Bytes c).length = 1 := by
      simp [utf8Bytes, hc]
    omega

/-- A human-readable part that is nonempty, short enough, in the visible
ASCII range, and without capitals passes `check_hrp`. -/
theorem checkHrp_some (hrp : List Nat) (hne : hrp ≠ [])
    (hlen : hrp.length ≤ 83)
    (hrange : ∀ c ∈ hrp, 33 ≤ c ∧ c ≤ 126)
    (hlow : ∀ c ∈ hrp, isUpperChar c = false) :
    ∃ hc, checkHrp hrp = some hc := by
  have hutf : utf8Len hrp = hrp.length :=
    utf8Len_ascii hrp (fun c hc => by have := (hrange c hc).2; omega)
  have hall : hrp.all (fun c => 33 ≤ c && c ≤ 126) = true :=
    List.all_eq_true.mpr (fun x hx => by
      simp [(hrange x hx).1, (hrange x hx).2])
  have hup : hrp.any isUpperChar = false :=
    List.any_eq_false.mpr (fun x hx => by simp [hlow x hx])
  unfold checkHrp
  rw [if_neg (by rw [hutf]; rintro (h1 | h2); exact hne h1; omega),
    if_neg (by rw [hall]; simp), hup]
  cases hl2 : hrp.any isLowerChar
  · exact ⟨HrpCase.none, by simp⟩
  · exact ⟨HrpCase.lower, by simp⟩

/-- The checksum characters are five-bit values. -/
theorem createChecksum_lt (hrp data : List Nat) :
    ∀ v ∈ createChecksum hrp data, v < 32 := by
  intro v hv
  simp only [createChecksum] at hv
  obtain ⟨i, _, rfl⟩ := List.mem_map.mp hv
  exact lt_of_le_of_lt Nat.and_le_right (by norm_num)

theorem createChecksum_length (hrp data : List Nat) :
    (createChecksum hrp data).length = 6 := by
  simp [createChecksum]

/-- Decoding recovers exactly what was encoded: for a valid lower-case
human-readable part and five-bit data, decoding the encoded string yields
the same parts back. -/
theorem bech32Decode_encode (hrp data : List Nat)
    (hne : hrp ≠ []) (hlen : hrp.length ≤ 83)
    (hrange : ∀ c ∈ hrp, 33 ≤ c ∧ c ≤ 126)
    (hlow : ∀ c ∈ hrp, isUpperChar c = false)
    (hdata : ∀ v ∈ data, v < 32) :
    bech32Decode (hrp ++ [49] ++
      (data ++ createChecksum hrp data).map (fun v => bech32Charset.getD v 0)) =
      some (hrp, data) := by
  set cs := createChecksum hrp data with hcsdef
  set full := data ++ cs with hfulldef
  set mapped := full.map (fun v => bech32Charset.getD v 0) with hmappeddef
  have hfull32 : ∀ v ∈ full, v < 32 := by
    intro v hv
    rcases List.mem_append.mp hv with h1 | h2
    · exact hdata v h1
    · exact createChecksum_lt hrp data v h2
  have hsep : ∀ c ∈ mapped, c ≠ 49 := by
    intro c hc
    obtain ⟨v, hv, rfl⟩ := List.mem_map.mp hc
    exact (bech32Charset_props v (hfull32 v hv)).1
  have hs : hrp ++ [49] ++ mapped = hrp ++ 49 :: mapped := by simp
  have hlast : lastIndexOf 49 (hrp ++ 49 :: mapped) = some hrp.length :=
    lastIndexOf_append hrp mapped (fun hm => hsep 49 hm rfl)
  have htake : (hrp ++ 49 :: mapped).take hrp.length = hrp :=
    List.take_left hrp (49 :: mapped)
  have hdrop : (hrp ++ 49 :: mapped).drop (hrp.length + 1) = mapped := by
    have h1 : (hrp ++ [49]).length = hrp.length + 1 := by simp
    rw [← hs, ← h1, List.drop_left]
  have hupper : (hrp ++ 49 :: mapped).any isUpperChar = false := by
    rw [List.any_eq_false]
    intro x hx
    rcases List.mem_append.mp hx with h1 | h2
    · simp [hlow x h1]
    · rcases List.mem_cons.mp h2 with h49 | h3
      · rw [h49]; decide
      · obtain ⟨v, hv, rfl⟩ := List.mem_map.mp h3
        rw [(bech32Charset_props v (hfull32 v hv)).2.1]
        decide
  have hmix : ¬((hrp ++ 49 :: mapped).any isUpperChar ∧
      (hrp ++ 49 :: mapped).any isLowerChar) := by
    intro hcon
    rw [hupper] at hcon
    exact Bool.noConfusion hcon.1
  obtain ⟨hcase, hchk⟩ := checkHrp_some hrp hne hlen hrange hlow
  have hmaplow : hrp.map lowerChar = hrp := map_lowerChar_id hrp hlow
  have hmapM : mapped.mapM bech32CharsetRev = some full :=
    mapM_map_inv _ _ full (fun v hv => (bech32Charset_props v (hfull32 v hv)).2.2.1)
  have hfl : full.length = data.length + 6 := by
    rw [hfulldef, List.length_append, hcsdef, createChecksum_length]
  have hpoly : polymod 1 (hrpExpand hrp ++ full) = 1 := by
    rw [hfulldef, hcsdef, ← List.append_assoc]
    exact polymod_checksum hrp data
  have htake2 : full.take (full.length - 6) = data := by
    rw [hfl, Nat.add_sub_cancel, hfulldef]
    exact List.take_left data cs
  rw [hs]
  unfold bech32Decode
  simp only [hlast]
  simp only [htake, hdrop]
  rw [if_neg hmix]
  simp only [hchk, hmaplow, hmapM]
  rw [if_neg (by rw [hfl]; omega), if_pos hpoly, htake2]


/-- C4 (corrected): for a 33-byte point and a nonempty label of at most 32
characters, all visible ASCII without capitals, `to_bech32` under that
label followed by `from_bech32` succeeds and returns the original point
bytes and label. -/
theorem toBech32_fromBech32_roundtrip (bytes label : List Nat)
    (hblen : bytes.length = 33) (hb : ∀ b ∈ bytes, b < 256)
    (hlne : label ≠ []) (hllen : label.length ≤ 32)
    (hlchars : ∀ c ∈ label, 33 ≤ c ∧ c ≤ 126 ∧ isUpperChar c = false) :
    ∃ s, toBech32 ⟨bytes, label⟩ label = .ok s ∧
      fromBech32 s = .ok ⟨bytes, label⟩ := by
  have hlchars2 : ∀ c ∈ label, 33 ≤ c ∧ c ≤ 126 :=
    fun c hc => ⟨(hlchars c hc).1, (hlchars c hc).2.1⟩
  have hlow : ∀ c ∈ label, isUpperChar c = false :=
    fun c hc => (hlchars c hc).2.2
  have haminob : ∀ b ∈ toAminoBytes ⟨bytes, label⟩, b < 256 := by
    intro b hbm
    rw [show toAminoBytes ⟨bytes, label⟩ =
      [0xEB, 0x5A, 0xE9, 0x87, 0x21] ++ bytes from rfl] at hbm
    rcases List.mem_append.mp hbm with h1 | h2
    · simp only [List.mem_cons, List.not_mem_nil, or_false] at h1
      rcases h1 with rfl | rfl | rfl | rfl | rfl <;> norm_num
    · exact hb b h2
  have haminolen : (toAminoBytes ⟨bytes, label⟩).length = 38 := by
    simp [toAminoBytes, hblen]
  have hd32 : ∀ v ∈ toBase32 (toAminoBytes ⟨bytes, label⟩), v < 32 :=
    (toBase32Go_spec (toAminoBytes ⟨bytes, label⟩) 0 0 (by norm_num) haminob).1
  obtain ⟨hcase, hchk⟩ := checkHrp_some label hlne (by omega) hlchars2 hlow
  have hmaplow : label.map lowerChar = label := map_lowerChar_id label hlow
  have hdec := bech32Decode_encode label (toBase32 (toAminoBytes ⟨bytes, label⟩))
    hlne (by omega) hlchars2 hlow hd32
  have hrt : fromBase32 (toBase32 (toAminoBytes ⟨bytes, label⟩)) =
      some (toAminoBytes ⟨bytes, label⟩) := fromBase32_toBase32 _ haminob
  have hutf : utf8Len label = label.length :=
    utf8Len_ascii label (fun c hc => by have := (hlchars2 c hc).2; omega)
  refine ⟨label ++ [49] ++
    ((toBase32 (toAminoBytes ⟨bytes, label⟩) ++
      createChecksum label (toBase32 (toAminoBytes ⟨bytes, label⟩))).map
      (fun v => bech32Charset.getD v 0)), ?_, ?_⟩
  · unfold toBech32 bech32Encode
    simp only [hchk, hmaplow]
  · unfold fromBech32
    simp only [hdec, hrt]
    rw [if_neg (fun hne38 => hne38 haminolen)]
    unfold publicKeyFromBytes arrayStringNew
    have hdrop5 : (toAminoBytes ⟨bytes, label⟩).drop 5 = bytes := rfl
    rw [hdrop5]
    have hng : ¬(utf8Len label > maxLabelLen) := by
      rw [hutf]
      unfold maxLabelLen
      omega
    rw [if_neg hng]


/-- C4, counterexample to the unamended claim: the empty label has length
at most 32 and the generator point is a valid compressed public key, yet
`to_bech32` already fails, so the encode-then-decode round trip cannot
succeed for every label of length at most 32. -/
theorem toBech32_empty_label_fails :
    ([] : List Nat).length ≤ 32 ∧
    toBech32 ⟨serializePoint gPoint, []⟩ [] = .error (.err .bech32Encode) :=
  ⟨by norm_num, rfl⟩

/-- C4, witness: the round trip applied to the serialized generator point
under the default label `cosmospub`. -/
theorem toBech32_fromBech32_roundtrip_witness :
    ∃ s, toBech32 ⟨serializePoint gPoint, defaultHrp⟩ defaultHrp = .ok s ∧
      fromBech32 s = .ok ⟨serializePoint gPoint, defaultHrp⟩ :=
  toBech32_fromBech32_roundtrip (serializePoint gPoint) defaultHrp
    (by decide) (by decide) (by decide) (by decide) (by decide)


end DeepSpace
